import Mathlib

/-!
Verification of the translator test runner (testTranslators/test.mjs,
testTranslators/translatorTester module) against its specification.

The JavaScript values manipulated by the code (test configurations, extracted
items, run results) are modelled by the inductive type `JVal`. JavaScript
objects are association lists of fields in insertion order, which is the
order both `for ... in` enumeration and `JSON.stringify` observe; real
objects never carry duplicate keys, and theorems that depend on key lookup
carry a no-duplicate-keys hypothesis.
-/

/-- A JavaScript value: undefined, null, boolean, number, string, array or
plain object (fields listed in insertion order). Numbers are modelled as
integers: every value the tester manipulates (lengths, ids, defer delays)
is integral. -/
inductive JVal where
  | undef : JVal
  | null : JVal
  | bool (b : Bool) : JVal
  | num (n : Int) : JVal
  | str (s : String) : JVal
  | arr (elems : List JVal) : JVal
  | obj (fields : List (String × JVal)) : JVal

theorem sizeOf_lt_of_mem_elems {x : JVal} {xs : List JVal} (h : x ∈ xs) :
    sizeOf x < sizeOf (JVal.arr xs) := by
  induction xs with
  | nil => cases h
  | cons y ys ih =>
    rcases List.mem_cons.mp h with h | h
    · subst h; simp; omega
    · have := ih h
      simp at this ⊢
      omega

theorem sizeOf_lt_of_mem_fields {p : String × JVal} {fs : List (String × JVal)}
    (h : p ∈ fs) : sizeOf p.2 < sizeOf (JVal.obj fs) := by
  induction fs with
  | nil => cases h
  | cons q qs ih =>
    rcases List.mem_cons.mp h with h | h
    · subst h
      rcases p with ⟨k, v⟩
      simp
      omega
    · have := ih h
      simp at this ⊢
      omega

/-- Induction over `JVal`, descending into the lists nested in arrays and
objects. -/
theorem jval_ind (P : JVal → Prop)
    (hundef : P .undef) (hnull : P .null)
    (hbool : ∀ b, P (.bool b)) (hnum : ∀ n, P (.num n)) (hstr : ∀ s, P (.str s))
    (harr : ∀ xs, (∀ x ∈ xs, P x) → P (.arr xs))
    (hobj : ∀ fs, (∀ p ∈ fs, P p.2) → P (.obj fs)) : ∀ v, P v := by
  have key : ∀ (n : Nat) (v : JVal), sizeOf v ≤ n → P v := by
    intro n
    induction n with
    | zero =>
      intro v hv
      cases v <;> simp at hv
    | succ n ih =>
      intro v hv
      match v with
      | .undef => exact hundef
      | .null => exact hnull
      | .bool b => exact hbool b
      | .num m => exact hnum m
      | .str s => exact hstr s
      | .arr xs =>
        refine harr xs (fun x hx => ih x ?_)
        have := sizeOf_lt_of_mem_elems hx
        omega
      | .obj fs =>
        refine hobj fs (fun p hp => ih p.2 ?_)
        have := sizeOf_lt_of_mem_fields hp
        omega
  exact fun v => key (sizeOf v) v (Nat.le_refl _)

mutual

/-- Boolean structural equality on values. -/
def beqJ : JVal → JVal → Bool
  | .undef, .undef => true
  | .null, .null => true
  | .bool a, .bool b => a == b
  | .num a, .num b => a == b
  | .str a, .str b => a == b
  | .arr xs, .arr ys => beqElems xs ys
  | .obj fs, .obj gs => beqFields fs gs
  | _, _ => false

def beqElems : List JVal → List JVal → Bool
  | [], [] => true
  | x :: xs, y :: ys => beqJ x y && beqElems xs ys
  | _, _ => false

def beqFields : List (String × JVal) → List (String × JVal) → Bool
  | [], [] => true
  | (k, v) :: fs, (l, w) :: gs => k == l && beqJ v w && beqFields fs gs
  | _, _ => false

end

theorem beqJ_iff : ∀ a b : JVal, beqJ a b = true ↔ a = b := by
  intro a
  induction a using jval_ind with
  | hundef => intro b; cases b <;> simp [beqJ]
  | hnull => intro b; cases b <;> simp [beqJ]
  | hbool a => intro b; cases b <;> simp [beqJ]
  | hnum a => intro b; cases b <;> simp [beqJ]
  | hstr a => intro b; cases b <;> simp [beqJ]
  | harr xs ih =>
    intro b
    cases b <;> simp [beqJ]
    rename_i ys
    induction xs generalizing ys with
    | nil => cases ys <;> simp [beqElems]
    | cons x xs ihx =>
      cases ys with
      | nil => simp [beqElems]
      | cons y ys =>
        simp only [beqElems, Bool.and_eq_true]
        rw [ih x (List.mem_cons_self _ _) y,
          ihx (fun x hx => ih x (List.mem_cons_of_mem _ hx)) ys]
        simp
  | hobj fs ih =>
    intro b
    cases b <;> simp [beqJ]
    rename_i gs
    induction fs generalizing gs with
    | nil => cases gs <;> simp [beqFields]
    | cons p fs ihf =>
      cases gs with
      | nil => simp [beqFields]
      | cons q gs =>
        rcases p with ⟨k, v⟩
        rcases q with ⟨l, w⟩
        simp only [beqFields, Bool.and_eq_true]
        rw [ih ⟨k, v⟩ (List.mem_cons_self _ _) w,
          ihf (fun p hp => ih p (List.mem_cons_of_mem _ hp)) gs]
        simp [and_assoc]

instance : DecidableEq JVal := fun a b =>
  decidable_of_iff (beqJ a b = true) (beqJ_iff a b)

namespace JVal

/-- JavaScript truthiness of a value. -/
def truthy : JVal → Bool
  | .undef => false
  | .null => false
  | .bool b => b
  | .num n => n != 0
  | .str s => s != ""
  | .arr _ => true
  | .obj _ => true

/-- Result of the JavaScript `typeof` operator (`typeof null` is "object"). -/
def jsTypeof : JVal → String
  | .undef => "undefined"
  | .null => "object"
  | .bool _ => "boolean"
  | .num _ => "number"
  | .str _ => "string"
  | .arr _ => "object"
  | .obj _ => "object"

/-- Strict equality `===` between values. Composite values compare by
reference in JavaScript; distinct values produced independently are distinct
references, and the code under verification only ever applies `===` to a
composite when the other side is a primitive, so `false` is the faithful
result for every composite comparison that actually occurs. -/
def primStrictEq : JVal → JVal → Bool
  | .undef, .undef => true
  | .null, .null => true
  | .bool a, .bool b => a == b
  | .num a, .num b => a == b
  | .str a, .str b => a == b
  | _, _ => false

/-- Whether a value is nullish (`undefined` or `null`), as tested by `??`. -/
def nullish : JVal → Bool
  | .undef => true
  | .null => true
  | _ => false

/-- The nullish coalescing operator `a ?? b`. -/
def coalesce (a b : JVal) : JVal := if a.nullish then b else a

end JVal

/-- First value stored under a key in an object field list (JavaScript
objects hold at most one entry per key; on the lists we manipulate the first
entry is the entry). -/
def lookupField : List (String × JVal) → String → Option JVal
  | [], _ => none
  | (k, v) :: rest, key => if k = key then some v else lookupField rest key

/-- Property deletion `delete o[key]`: removes the entry for a key. -/
def delFields (fs : List (String × JVal)) (key : String) : List (String × JVal) :=
  fs.filter (fun p => p.1 ≠ key)

/-- Property assignment `o[key] = v`: overwrites the entry in place if the
key is present, otherwise appends a new entry (JavaScript insertion order). -/
def updFields : List (String × JVal) → String → JVal → List (String × JVal)
  | [], key, v => [(key, v)]
  | (k, w) :: rest, key, v =>
      if k = key then (k, v) :: rest else (k, w) :: updFields rest key v

/-- Own enumerable keys of an object, in `for ... in` order. -/
def objKeys : JVal → List String
  | .obj fs => fs.map Prod.fst
  | _ => []

/-- Canonical array index denoted by a string key, if any (JavaScript treats
a key as an index when it round-trips through `String(i)`). -/
def strIndex? (k : String) : Option Nat :=
  match k.toNat? with
  | some i => if toString i = k then some i else none
  | none => none

/-- Property read `base[key]` as it occurs in the code under verification:
object fields, the `length` of arrays and strings, and indexed access. Reads
on other primitives yield `undefined`. -/
def jsGet : JVal → String → JVal
  | .obj fs, k => (lookupField fs k).getD .undef
  | .arr xs, k =>
      if k = "length" then .num xs.length
      else match strIndex? k with
        | some i => xs.getD i .undef
        | none => .undef
  | .str s, k =>
      if k = "length" then .num s.data.length
      else match strIndex? k with
        | some i =>
            if h : i < s.data.length then .str ⟨[s.data.get ⟨i, h⟩]⟩ else .undef
        | none => .undef
  | _, _ => (.undef)

/-- `base.hasOwnProperty(key)` for the values compared by `deepEqual`:
objects own their fields, arrays and strings own their indices and
`length`; other primitives own nothing. -/
def jsHasOwn : JVal → String → Bool
  | .obj fs, k => fs.any (fun p => p.1 = k)
  | .arr xs, k =>
      k = "length" ||
        (match strIndex? k with
         | some i => i < xs.length
         | none => false)
  | .str s, k =>
      k = "length" ||
        (match strIndex? k with
         | some i => i < s.data.length
         | none => false)
  | _, _ => false

/-- Keys visited by `for ... in` over a value: the own enumerable
properties. Array and string indices are enumerable, `length` is not;
numbers, booleans, `undefined` enumerate nothing. -/
def jsEnumKeys : JVal → List String
  | .obj fs => fs.map Prod.fst
  | .arr xs => (List.range xs.length).map toString
  | .str s => (List.range s.data.length).map toString
  | _ => []

/-- Modelled from the spec: `Zotero.Utilities.trimInternal` (the utilities
collaborator is not under src/). Per the spec, string comparison "ignores
leading/trailing/collapsed internal whitespace": runs of whitespace collapse
to a single space and surrounding whitespace is trimmed. Helper fold: the
flag records whether the previous kept character position is a boundary or
fresh space, so further whitespace is dropped. -/
def collapseWs : Bool → List Char → List Char
  | _, [] => []
  | prevWs, c :: cs =>
      if c = ' ' ∨ c = '\t' ∨ c = '\n' ∨ c = '\r' then
        if prevWs then collapseWs true cs else ' ' :: collapseWs true cs
      else c :: collapseWs false cs

/-- Modelled from the spec: `Zotero.Utilities.trimInternal`, see
`collapseWs`. A trailing collapsed space is removed to complete the trim. -/
def trimInternal (s : String) : String :=
  ⟨((collapseWs true s.data).reverse.dropWhile (fun c => c = ' ')).reverse⟩

mutual

/-- The function `deepEqual(a, b)` of test.mjs. The branch condition in the
source is
`(typeof a === "object" && a !== null || typeof a === "function") &&
 (typeof a === "object" && b !== null || typeof b === "function")`
(note: the second group tests `typeof a`, not `typeof b`), so the composite
branch is taken whenever `a` is an object or array and `b` is not null.
Functions never occur among the compared values. Inside the branch,
`Array.isArray(a) !== Array.isArray(b)` returns false; then keys of `a` are
checked against `b` and keys of `b` against `a`. For two arrays the key sets
are the index ranges, so the branch reduces to element-wise comparison with
a length check, done by `deepEqualElems`; an array against a non-array
composite fails the `isArray` test, and an array against a primitive either
fails it or falls through to `===`, so both give false. -/
def deepEqual : JVal → JVal → Bool
  | .obj _, .null => false
  | .obj _, .arr _ => false
  | .obj fs, b =>
      deepEqualFields fs b && (jsEnumKeys b).all (fun k => jsHasOwn (.obj fs) k)
  | .arr xs, .arr ys => deepEqualElems xs ys
  | .arr _, _ => false
  | .str s, .str t => s == t || trimInternal s == trimInternal t
  | a, b => JVal.primStrictEq a b

/-- The `for (let key in a)` loop of `deepEqual`: each own field of `a` must
be an own property of `b` whose value compares equal. -/
def deepEqualFields : List (String × JVal) → JVal → Bool
  | [], _ => true
  | (k, v) :: rest, b =>
      jsHasOwn b k && deepEqual v (jsGet b k) && deepEqualFields rest b

/-- Array case of `deepEqual`: the two index-key loops amount to equal
lengths and element-wise equality. -/
def deepEqualElems : List JVal → List JVal → Bool
  | [], [] => true
  | x :: xs, y :: ys => deepEqual x y && deepEqualElems xs ys
  | _, _ => false

end

mutual

/-- The round trip `JSON.parse(JSON.stringify(item))` in `sanitizeItem`:
object fields whose value is `undefined` are dropped, `undefined` array
elements become `null`, everything else survives. A bare `undefined` input
makes `JSON.parse` throw, which the source catches, keeping the item
unchanged; the catch-all case models that. `JVal` has no functions and no
cycles, so no other value is affected. -/
def jsonRT : JVal → JVal
  | .obj fs => .obj (jsonRTFields fs)
  | .arr xs => .arr (jsonRTElems xs)
  | v => v

def jsonRTFields : List (String × JVal) → List (String × JVal)
  | [] => []
  | (k, v) :: rest =>
      match v with
      | .undef => jsonRTFields rest
      | v => (k, jsonRT v) :: jsonRTFields rest

def jsonRTElems : List JVal → List JVal
  | [] => []
  | v :: rest =>
      match v with
      | .undef => .null :: jsonRTElems rest
      | v => jsonRT v :: jsonRTElems rest

end

/-- The attachment cleanup loop body of `sanitizeItem`: if the attachment
carries a truthy `document`, the handle is deleted and `mimeType` is forced
to "text/html"; truthy `url` and `complete` markers are deleted. Attachment
entries that are not objects are left alone (the source would fault on a
nullish entry before doing any work; no record carries one). -/
def delIfTruthy (gs : List (String × JVal)) (k : String) : List (String × JVal) :=
  if ((lookupField gs k).getD .undef).truthy then delFields gs k else gs

/-- The `document` branch of the attachment loop body: delete the truthy
handle, then force `mimeType` to "text/html". -/
def docStep (gs : List (String × JVal)) : List (String × JVal) :=
  if ((lookupField gs "document").getD .undef).truthy then
    updFields (delFields gs "document") "mimeType" (.str "text/html")
  else gs

/-- The three `if` statements of the attachment loop body on the field
list. -/
def fixAttachmentFields (gs : List (String × JVal)) : List (String × JVal) :=
  delIfTruthy (delIfTruthy (docStep gs) "url") "complete"

def fixAttachment : JVal → JVal
  | .obj gs => .obj (fixAttachmentFields gs)
  | v => v

/-- The guard `item.attachments && item.attachments.length` followed by the
per-attachment loop: runs only when `attachments` is a nonempty array (the
value extraction produces arrays; a truthy non-array would make the
source's `for ... of` fault or loop over string characters to no effect). -/
def fixAttachments : JVal → JVal
  | .obj fs =>
      match lookupField fs "attachments" with
      | some (.arr xs) =>
          if xs.length ≠ 0 then
            .obj (updFields fs "attachments" (.arr (xs.map fixAttachment)))
          else .obj fs
      | _ => .obj fs
  | v => v

/-- The external field-schema collaborator used by `sanitizeItem`
(`Zotero.ItemTypes` / `Zotero.ItemFields`, part of the host platform, not of
this repository). `getID` calls return a numeric id or a falsy value for
unknown names; ids are modelled as `Nat` with `0` standing for the falsy
"no id" result, which is faithful because the source only ever tests these
results for truthiness or strict equality with each other. -/
structure Registry where
  getTypeID : JVal → Nat
  getFieldID : String → Nat
  getFieldIDFromTypeAndBase : Nat → Nat → Nat
  getName : Nat → String
  isValidForType : Nat → Nat → Bool

/-- The `skipFields` set of `sanitizeItem`: fields exempted from the
registry-driven removal loop. -/
def skipFields : List String :=
  ["note", "notes", "itemID", "attachments", "tags", "seeAlso", "itemType",
   "creators", "complete"]

/-- One iteration of the `for (let field in item)` loop of `sanitizeItem`:
skip-listed fields are left alone; a field with no registry id or a falsy
value is deleted; a field whose id has a type-specific subfield is moved
onto the subfield name and deleted; a field invalid for the item type is
deleted. An absent field (possible when a key was consumed earlier in the
loop) performs only a no-op delete. -/
def processFields (reg : Registry) (typeID : Nat) (fs : List (String × JVal))
    (field : String) : List (String × JVal) :=
  if field ∈ skipFields then fs
  else
    match lookupField fs field with
    | none => fs
    | some v =>
        if reg.getFieldID field = 0 ∨ ¬v.truthy then delFields fs field
        else if reg.getFieldIDFromTypeAndBase typeID (reg.getFieldID field) ≠ 0 ∧
            reg.getFieldIDFromTypeAndBase typeID (reg.getFieldID field) ≠
              reg.getFieldID field then
          delFields
            (updFields fs
              (reg.getName (reg.getFieldIDFromTypeAndBase typeID (reg.getFieldID field)))
              v)
            field
        else if ¬reg.isValidForType (reg.getFieldID field) typeID then
          delFields fs field
        else fs

/-- The loop body on a whole value: extraction records are objects; on any
other value the visited key cannot be an own property, so only the no-op
paths run. -/
def processField (reg : Registry) (typeID : Nat) (item : JVal) (field : String) :
    JVal :=
  match item with
  | .obj fs => .obj (processFields reg typeID fs field)
  | v => v

/-- The whole field loop: `for ... in` visits the keys present when the loop
starts (keys added during iteration are not visited; the only key deleted
before its visit is the currently visited one, so reading the live object at
each snapshot key is faithful). -/
def runLoop (reg : Registry) (typeID : Nat) (fields : List String) (item : JVal) :
    JVal :=
  fields.foldl (processField reg typeID) item

/-- Modelled from the spec: tag canonicalization delegates to
`Zotero.Translate.Base.prototype._cleanTags` (translate.js, which is part of
this repository but not under src/). Per spec step 6, each tag's
representation is canonicalized: a tag with usable text becomes the object
form with a single `tag` field, whether it arrived as a bare string or as an
object carrying a `tag` field; tags without usable text are dropped. -/
def cleanTag : JVal → Option JVal
  | .str s => if s = "" then none else some (.obj [("tag", .str s)])
  | .obj fs =>
      match (lookupField fs "tag").getD .undef with
      | .str s => if s = "" then none else some (.obj [("tag", .str s)])
      | _ => none
  | _ => none

/-- Modelled from the spec: the list form of `cleanTag`. -/
def cleanTags (ts : List JVal) : List JVal := ts.filterMap cleanTag

/-- Sort key used by the tag comparator `(a, b) => a.tag < b.tag ? -1 : ...`
on canonicalized tags. -/
def tagKey (t : JVal) : String :=
  match jsGet t "tag" with
  | .str s => s
  | _ => ""

/-- Ordering tested by the tag comparator
`(a, b) => a.tag < b.tag ? -1 : b.tag < a.tag ? 1 : 0`. -/
def tagLE (a b : JVal) : Prop := tagKey a ≤ tagKey b

instance : DecidableRel tagLE := fun a b =>
  inferInstanceAs (Decidable (tagKey a ≤ tagKey b))

instance : IsTotal JVal tagLE := ⟨fun a b => le_total (tagKey a) (tagKey b)⟩

instance : IsTrans JVal tagLE := ⟨fun _ _ _ => le_trans⟩

/-- The tag sort of `sanitizeItem`: insertion sort places each element
before the first element whose key is not below it, which reproduces the
output of the stable `Array.prototype.sort` under this comparator. -/
def sortTags (l : List JVal) : List JVal := List.insertionSort tagLE l

/-- The final tag step of `sanitizeItem`: when `tags` holds an array
(arrays are always truthy), it is replaced by the canonicalized, sorted
list. -/
def tagsStep : JVal → JVal
  | .obj fs =>
      match lookupField fs "tags" with
      | some (.arr ts) => .obj (updFields fs "tags" (.arr (sortTags (cleanTags ts))))
      | _ => .obj fs
  | v => v

/-- Deletion of a field from an object value (`delete item.accessDate`). -/
def delObjField : JVal → String → JVal
  | .obj fs, k => .obj (delFields fs k)
  | v, _ => v

/-- The function `sanitizeItem(item)` of test.mjs: attachment cleanup, the
serialize/parse round trip, the registry-driven field loop over the keys
present at loop entry, removal of `accessDate`, and tag canonicalization and
sorting. The loop's `for ... in` enumerates object keys; extraction records
are objects, and on non-objects the loop body has nothing to visit. -/
def sanitizeItem (reg : Registry) (item : JVal) : JVal :=
  let item1 := fixAttachments item
  let item2 := jsonRT item1
  let typeID := reg.getTypeID (jsGet item2 "itemType")
  let item3 := runLoop reg typeID (objKeys item2) item2
  let item4 := delObjField item3 "accessDate"
  tagsStep item4

/-- The `TEST_TYPES` constant of test.mjs. -/
def TEST_TYPES : List String := ["web", "import", "export", "search"]

/-- The validated state of a `Test` instance: the values held by the private
fields `_type`, `_defer`, `_input`, `_detectedItemType`, `_items` after the
setters ran. -/
structure Test where
  type : String
  defer : JVal
  input : JVal
  detectedItemType : JVal
  items : JVal
deriving DecidableEq

/-- A raw configuration object passed to the `Test` constructor, projected
onto the properties the constructor reads; a property that the object does
not carry reads as `undefined`. -/
structure TestInit where
  type : JVal
  defer : JVal
  input : JVal
  url : JVal
  items : JVal
  detectedItemType : JVal

/-- The `type` setter: the value must be one of the four recognized kinds
(`TEST_TYPES.includes` compares with strict equality, so only those exact
strings pass). -/
def checkType : JVal → Except String String
  | .str t => if t ∈ TEST_TYPES then .ok t else .error ("Invalid test type: " ++ t)
  | _ => .error "Invalid test type"

/-- The `defer` setter: a truthy value must be `true` or a number, anything
falsy is stored as `undefined`. -/
def checkDefer (v : JVal) : Except String JVal :=
  if v.truthy then
    match v with
    | .bool true => .ok (.bool true)
    | .num n => .ok (.num n)
    | .bool false => .error "Invalid defer"
    | .undef => .error "Invalid defer"
    | .null => .error "Invalid defer"
    | .str _ => .error "Invalid defer"
    | .arr _ => .error "Invalid defer"
    | .obj _ => .error "Invalid defer"
  else .ok (.undef)

/-- The `input` setter: web and import tests require `typeof input` to be
"string", search and export tests require "object". -/
def checkInput (ty : String) (v : JVal) : Except String JVal :=
  let expected := if ty = "web" ∨ ty = "import" then "string" else "object"
  if v.jsTypeof = expected then .ok v
  else .error (ty ++ " test input must be a string")

/-- The `detectedItemType` setter: only `undefined`, strings and booleans
are accepted. -/
def checkDetectedItemType : JVal → Except String JVal
  | .undef => .ok .undef
  | .str s => .ok (.str s)
  | .bool b => .ok (.bool b)
  | _ => .error "detectedItemType must be a string or boolean"

/-- The `items` setter: the value must be an array or the exact string
"multiple"; arrays are stored with every element passed through
`sanitizeItem`. -/
def checkItems (reg : Registry) : JVal → Except String JVal
  | .arr xs => .ok (.arr (xs.map (sanitizeItem reg)))
  | .str s =>
      if s = "multiple" then .ok (.str s)
      else .error "items must be an array or the multiple sentinel"
  | _ => .error "items must be an array or the multiple sentinel"

/-- The method `_inferItemType()`: for non-web tests, the boolean
`!!this._items.length`; for web tests, the `multiple` sentinel passes
through, a nonempty array contributes its first element's `itemType`, and an
empty array infers `false`. -/
def inferItemType (ty : String) (items : JVal) : JVal :=
  if ty ≠ "web" then .bool (jsGet items "length").truthy
  else if JVal.primStrictEq items (.str "multiple") then .str "multiple"
  else if (jsGet items "length").truthy then
    match items with
    | .arr (x :: _) => jsGet x "itemType"
    | _ => .undef
  else .bool false

/-- The `Test` constructor on a raw configuration: fields are assigned in
source order (`type`, `defer`, `input ?? url`, `items`,
`detectedItemType ?? _inferItemType()`), each through its validating
setter; the first validation failure is the thrown error. -/
def Test.make (reg : Registry) (i : TestInit) : Except String Test := do
  let ty ← checkType i.type
  let df ← checkDefer (JVal.coalesce i.defer (.bool false))
  let inp ← checkInput ty (JVal.coalesce i.input i.url)
  let its ← checkItems reg i.items
  let dit ← checkDetectedItemType
    (JVal.coalesce i.detectedItemType (inferItemType ty its))
  .ok ⟨ty, df, inp, dit, its⟩

/-- The method `toJSON()`: the input is stored under `url` for web tests and
`input` otherwise, and `detectedItemType` is replaced by `undefined` exactly
when the stored value is truthy and strictly equal to the inferred one
(`this._detectedItemType && this._detectedItemType === this._inferItemType()`). -/
def Test.toJSON (t : Test) : JVal :=
  .obj
    [("type", .str t.type),
     ("defer", t.defer),
     (if t.type = "web" then "url" else "input", t.input),
     ("detectedItemType",
       if t.detectedItemType.truthy ∧
           JVal.primStrictEq t.detectedItemType (inferItemType t.type t.items) then
         .undef
       else t.detectedItemType),
     ("items", t.items)]

/-- The method `equals(test)`: deep equality of the two serialized forms. -/
def Test.equals (t u : Test) : Bool := deepEqual t.toJSON u.toJSON

/-- Reading the constructor-relevant properties back off a serialized test
(`new Test(test)` first replaces the instance by `test.toJSON()`). -/
def TestInit.ofJVal (v : JVal) : TestInit :=
  ⟨jsGet v "type", jsGet v "defer", jsGet v "input", jsGet v "url",
    jsGet v "items", jsGet v "detectedItemType"⟩

/-- Cloning a test through the constructor: `new Test(test)`. -/
def Test.ofTest (reg : Registry) (t : Test) : Except String Test :=
  Test.make reg (TestInit.ofJVal t.toJSON)

/-- A raw run result `{ detectedItemType, items, reason }`: the transient
structure produced by one execution attempt and consumed by the
classification logic. A property the producer did not set reads as
`undefined`. -/
structure Collected where
  detectedItemType : JVal
  items : JVal
  reason : JVal
deriving DecidableEq

/-- Outcome status of one run. -/
inductive Status where
  | success : Status
  | failure : Status
deriving DecidableEq

/-- The `{ status, reason?, updatedTest? }` shape returned by `run`. -/
structure RunResult where
  status : Status
  reason : Option JVal
  updatedTest : Option Test
deriving DecidableEq

/-- What the dispatched translation attempt did: either its promise
rejected (timeout, abort, or any thrown fault — `String(e)` gives the
message) or it resolved to a collected result. -/
inductive Dispatched where
  | threw (message : JVal)
  | returned (r : Collected)

/-- Lines 146-195 of the runner's `run`: classification of a collected
result. No items: success exactly when no type was detected and the
expectation is strictly `false`, otherwise failure with the collected
reason. Otherwise an updated test is built from the original through the
constructor and the two setters (whose validation errors would escape
`run`, hence the `Except`); then detection mismatch, arity mismatch against
the `multiple` sentinel, and full structural equality are checked in that
order. -/
def classifyResult (reg : Registry) (test : Test) (r : Collected) :
    Except String RunResult :=
  if ¬r.items.truthy then
    if ¬r.detectedItemType.truthy ∧
        JVal.primStrictEq test.detectedItemType (.bool false) then
      .ok ⟨.success, none, none⟩
    else .ok ⟨.failure, some r.reason, none⟩
  else do
    let base ← Test.ofTest reg test
    let dit ← checkDetectedItemType r.detectedItemType
    let its ← checkItems reg r.items
    let updatedTest : Test :=
      { type := base.type, defer := base.defer, input := base.input,
        detectedItemType := dit, items := its }
    if ¬JVal.primStrictEq test.detectedItemType r.detectedItemType then
      .ok ⟨.failure, some (.str "Detection returned wrong item type"), some updatedTest⟩
    else if (JVal.primStrictEq test.items (.str "multiple") ∨
        JVal.primStrictEq r.items (.str "multiple")) ∧
        ¬JVal.primStrictEq test.items r.items then
      .ok ⟨.failure,
        some (.str ("Expected "
          ++ (if JVal.primStrictEq test.items (.str "multiple") then "multiple"
              else "single item")
          ++ ", got "
          ++ (if JVal.primStrictEq r.items (.str "multiple") then "multiple"
              else "single item"))),
        some updatedTest⟩
    else if ¬test.equals updatedTest then
      .ok ⟨.failure, some (.str "Data mismatch"), some updatedTest⟩
    else .ok ⟨.success, none, some updatedTest⟩

namespace TranslatorTester

/-- The public `run(test)` of `TranslatorTester`: web, import and search
tests dispatch their translation inside `try`/`catch`, so a rejected attempt
becomes a failure result with the stringified fault as reason, and a
resolved attempt is classified; an export test throws
`Error("Export tests are not yet supported")` outside any `try`, and an
unknown type throws as well (unreachable for validated tests, whose type
setter admits only the four kinds). -/
def run (reg : Registry) (test : Test) (d : Dispatched) :
    Except String RunResult :=
  if test.type = "web" ∨ test.type = "import" ∨ test.type = "search" then
    match d with
    | .threw msg => .ok ⟨.failure, some msg, none⟩
    | .returned r => classifyResult reg test r
  else if test.type = "export" then .error "Export tests are not yet supported"
  else .error ("Unknown test type: " ++ test.type)

end TranslatorTester

/-- The optional chain `items?.length`. -/
def optLength (v : JVal) : JVal :=
  if v.nullish then .undef else jsGet v "length"

/-- Lines 240-259 of `_translateWeb`: interpretation of the raw translation
result before handing it to classification. The checks run in source order:
no items with a given reason, no or empty items, more than one
`selectItems` call, exactly one call (collapse to the `multiple` sentinel),
then plain success. -/
def collectWebResult (raw : Collected) (numSelectItemsCalls : Nat) : Collected :=
  if ¬raw.items.truthy ∧ raw.reason.truthy then raw
  else if ¬(optLength raw.items).truthy then
    ⟨raw.detectedItemType, .null, .str "Translator did not return any items"⟩
  else if numSelectItemsCalls > 1 then
    ⟨raw.detectedItemType, .null, .str "Translator called selectItems multiple times"⟩
  else if numSelectItemsCalls ≠ 0 then
    ⟨raw.detectedItemType, .str "multiple", .undef⟩
  else ⟨raw.detectedItemType, raw.items, .undef⟩

instance {e a : Type _} [DecidableEq e] [DecidableEq a] : DecidableEq (Except e a) :=
  fun x y =>
    match x, y with
    | .ok v, .ok w =>
        if h : v = w then isTrue (congrArg _ h)
        else isFalse (fun hh => h (Except.ok.inj hh))
    | .error v, .error w =>
        if h : v = w then isTrue (congrArg _ h)
        else isFalse (fun hh => h (Except.error.inj hh))
    | .ok _, .error _ => isFalse (fun hh => Except.noConfusion hh)
    | .error _, .ok _ => isFalse (fun hh => Except.noConfusion hh)

/-- A concrete instance of the external registry whose schema knows no types
and no fields: every lookup reports the falsy "no id". Used to evaluate the
code on explicit inputs. -/
def stubRegistry : Registry :=
  ⟨fun _ => 0, fun _ => 0, fun _ _ => 0, fun _ => "", fun _ _ => true⟩

/-- Consistency properties of the external field registry that the real
Zotero schema satisfies and on which the normalizer's behaviour on rename
targets rests: when a base field has a type-specific subfield, the
subfield's name is a real field name (not one of the skip-listed meta
fields), naming is inverse to id lookup, the subfield has no further
subfield besides itself, and the subfield is valid for the type. -/
structure Coherent (reg : Registry) : Prop where
  name_not_skip : ∀ t f, reg.getFieldIDFromTypeAndBase t f ≠ 0 →
    reg.getName (reg.getFieldIDFromTypeAndBase t f) ∉ skipFields
  name_id : ∀ t f, reg.getFieldIDFromTypeAndBase t f ≠ 0 →
    reg.getFieldID (reg.getName (reg.getFieldIDFromTypeAndBase t f)) =
      reg.getFieldIDFromTypeAndBase t f
  sub_fix : ∀ t f, reg.getFieldIDFromTypeAndBase t f ≠ 0 →
    reg.getFieldIDFromTypeAndBase t (reg.getFieldIDFromTypeAndBase t f) = 0 ∨
    reg.getFieldIDFromTypeAndBase t (reg.getFieldIDFromTypeAndBase t f) =
      reg.getFieldIDFromTypeAndBase t f
  sub_valid : ∀ t f, reg.getFieldIDFromTypeAndBase t f ≠ 0 →
    reg.isValidForType (reg.getFieldIDFromTypeAndBase t f) t = true

theorem stubRegistry_coherent : Coherent stubRegistry := by
  constructor <;> intro t f h <;> exact absurd rfl h

/-- An export test (its input must satisfy `typeof input === "object"`). -/
def c1Init : TestInit := ⟨.str "export", .undef, .obj [], .undef, .arr [], .undef⟩

/-- The validated state produced by the constructor on `c1Init`. -/
def c1Test : Test := ⟨"export", .undef, .obj [], .bool false, .arr []⟩

/-- C1, counterexample: on a validly constructed export test, `run` does not
return a structured result at all — the promise rejects with
`Error("Export tests are not yet supported")` — contradicting the claim
that every test type yields a `{status, reason?, updatedTest?}` result and
that an export test yields a failure result rather than a thrown error. -/
theorem C1_export_run_throws_ce :
    Test.make stubRegistry c1Init = Except.ok c1Test ∧
    TranslatorTester.run stubRegistry c1Test (.returned ⟨.undef, .arr [], .undef⟩) =
      Except.error "Export tests are not yet supported" := by
  constructor
  · decide
  · decide

/-- C1 (amended): for the three supported test types a fault raised by the
dispatched translation is caught and converted into a structured failure
result carrying the stringified fault as reason, but an export test makes
`run` itself throw `Error("Export tests are not yet supported")` instead of
returning a result. -/
theorem C1_run_dispatch (reg : Registry) (test : Test) (d : Dispatched)
    (msg : JVal) :
    (test.type = "export" →
      TranslatorTester.run reg test d =
        Except.error "Export tests are not yet supported") ∧
    (test.type = "web" ∨ test.type = "import" ∨ test.type = "search" →
      TranslatorTester.run reg test (.threw msg) =
        Except.ok ⟨.failure, some msg, none⟩) := by
  constructor
  · intro h
    simp [TranslatorTester.run, h]
  · intro h
    rcases h with h | h | h <;> simp [TranslatorTester.run, h]

/-- C1, witness for the amended theorem at concrete inputs. -/
theorem C1_run_dispatch_witness :
    TranslatorTester.run stubRegistry c1Test (.threw (.str "Error: boom")) =
      Except.error "Export tests are not yet supported" ∧
    TranslatorTester.run stubRegistry ⟨"web", .undef, .str "u", .bool false, .arr []⟩
        (.threw (.str "Error: boom")) =
      Except.ok ⟨.failure, some (.str "Error: boom"), none⟩ :=
  ⟨(C1_run_dispatch stubRegistry c1Test (.threw (.str "Error: boom"))
      (.str "Error: boom")).1 rfl,
   (C1_run_dispatch stubRegistry ⟨"web", .undef, .str "u", .bool false, .arr []⟩
      (.threw (.str "Error: boom")) (.str "Error: boom")).2 (Or.inl rfl)⟩

/-- C2, counterexample: a web run in which the selection handler was invoked
twice but extraction produced zero records is collected as a failure with
reason "Translator did not return any items" — the empty-items check fires
before the multiple-selectItems check — contradicting the claim that the
multiple-invocation reason is reported even when zero records were
returned. -/
theorem C2_zero_records_ce :
    collectWebResult ⟨.undef, .arr [], .undef⟩ 2 =
      ⟨.undef, .null, .str "Translator did not return any items"⟩ ∧
    JVal.str "Translator did not return any items" ≠
      JVal.str "Translator called selectItems multiple times" := by
  constructor
  · decide
  · decide

/-- C2 (amended): when the selection handler was invoked more than once and
the extraction produced at least one record, the collected result is a
failure with reason "Translator called selectItems multiple times"; with
zero records the earlier no-items checks take precedence. -/
theorem C2_multi_select (d reason : JVal) (xs : List JVal) (n : Nat)
    (hxs : xs ≠ []) (hn : 1 < n) :
    collectWebResult ⟨d, .arr xs, reason⟩ n =
      ⟨d, .null, .str "Translator called selectItems multiple times"⟩ := by
  have hlen : xs.length ≠ 0 := fun h => hxs (List.length_eq_zero.mp h)
  simp [collectWebResult, JVal.truthy, optLength, JVal.nullish, jsGet, hlen, hn]

/-- C2, witness for the amended theorem at a concrete input. -/
theorem C2_multi_select_witness :
    collectWebResult ⟨.undef, .arr [.obj []], .undef⟩ 2 =
      ⟨.undef, .null, .str "Translator called selectItems multiple times"⟩ :=
  C2_multi_select .undef .undef [.obj []] 2 (by decide) (by decide)

/-- A raw record carrying only skip-listed meta fields. -/
def c3Item : JVal :=
  .obj [("itemType", .str "book"), ("creators", .arr [.obj [("lastName", .str "P")]]),
        ("note", .str "a note"), ("seeAlso", .arr [])]

/-- C3, counterexample: the normalizer keeps the note body, the see-also
links, the item-type tag and the creators list — `skipFields` is the set of
fields the removal loop skips over, not a set of fields it deletes — so the
claim that none of these fields is present in the normalized output is
false on this record. -/
theorem C3_skip_fields_kept_ce :
    sanitizeItem stubRegistry c3Item = c3Item ∧
    jsHasOwn (sanitizeItem stubRegistry c3Item) "creators" = true ∧
    jsHasOwn (sanitizeItem stubRegistry c3Item) "note" = true ∧
    jsHasOwn (sanitizeItem stubRegistry c3Item) "itemType" = true := by
  refine ⟨by decide, by decide, by decide, by decide⟩

/-- A web test carrying an explicit `detectedItemType: false` and no
items, so the inferred type is `false` as well. -/
def c4Init : TestInit :=
  ⟨.str "web", .undef, .undef, .str "https://example.com/", .arr [], .bool false⟩

/-- The validated state produced by the constructor on `c4Init`. -/
def c4Test : Test := ⟨"web", .undef, .str "https://example.com/", .bool false, .arr []⟩

/-- C4, counterexample: on a test whose stored `detectedItemType` is the
boolean `false` and whose inferred type is also `false`, serialization does
not omit the field — the truthiness guard in `toJSON` short-circuits, so the
stored `false` is emitted. -/
theorem C4_false_not_omitted_ce :
    Test.make stubRegistry c4Init = Except.ok c4Test ∧
    inferItemType c4Test.type c4Test.items = .bool false ∧
    jsGet c4Test.toJSON "detectedItemType" = .bool false := by
  refine ⟨by decide, by decide, by decide⟩

/-- C4 (amended): serialization omits `detectedItemType` exactly when the
stored value is truthy and strictly equal to the inferred one; a stored
boolean `false` is always emitted, even when the inferred value is also
`false`. -/
theorem C4_toJSON_detectedItemType (t : Test) :
    (t.detectedItemType.truthy = true →
      JVal.primStrictEq t.detectedItemType (inferItemType t.type t.items) = true →
      jsGet t.toJSON "detectedItemType" = .undef) ∧
    (t.detectedItemType = .bool false →
      jsGet t.toJSON "detectedItemType" = .bool false) := by
  constructor
  · intro h1 h2
    by_cases ht : t.type = "web"
    · rw [ht] at h2
      simp [Test.toJSON, jsGet, lookupField, ht, h1, h2]
    · simp [Test.toJSON, jsGet, lookupField, ht, h1, h2]
  · intro h
    by_cases ht : t.type = "web" <;>
      simp [Test.toJSON, jsGet, lookupField, ht, h, JVal.truthy]

/-- C4, witness for the amended theorem at concrete inputs: a truthy stored
type equal to the inferred one is dropped; the stored `false` of `c4Test` is
emitted. -/
theorem C4_toJSON_detectedItemType_witness :
    jsGet (Test.toJSON ⟨"web", .undef, .str "u", .str "book",
        .arr [.obj [("itemType", .str "book")]]⟩) "detectedItemType" = .undef ∧
    jsGet c4Test.toJSON "detectedItemType" = .bool false :=
  ⟨(C4_toJSON_detectedItemType ⟨"web", .undef, .str "u", .str "book",
      .arr [.obj [("itemType", .str "book")]]⟩).1 (by decide) (by decide),
   (C4_toJSON_detectedItemType c4Test).2 rfl⟩

/-- A record whose only field is an attachments list holding one empty
object. -/
def c5ItemObj : JVal := .obj [("attachments", .arr [.obj []])]

/-- A record whose only field is an attachments list holding the number 5. -/
def c5ItemNum : JVal := .obj [("attachments", .arr [.num 5])]

/-- Configuration for a web test expecting `c5ItemObj`. -/
def c5InitA : TestInit :=
  ⟨.str "web", .undef, .undef, .str "https://example.com/", .arr [c5ItemObj], .undef⟩

/-- Configuration for a web test expecting `c5ItemNum`. -/
def c5InitB : TestInit :=
  ⟨.str "web", .undef, .undef, .str "https://example.com/", .arr [c5ItemNum], .undef⟩

/-- The validated state produced by the constructor on `c5InitA`. -/
def c5TestA : Test :=
  ⟨"web", .undef, .str "https://example.com/", .undef, .arr [c5ItemObj]⟩

/-- The validated state produced by the constructor on `c5InitB`. -/
def c5TestB : Test :=
  ⟨"web", .undef, .str "https://example.com/", .undef, .arr [c5ItemNum]⟩

/-- C5: the claim is right about the intended equality relation and the code
has a slip. In `deepEqual` the composite-branch condition tests
`typeof a === "object" && b !== null` where the parallel first group makes
plain that `typeof b` was meant, so an empty object on the left compares
equal to any key-less primitive on the right while the swapped comparison
falls through to `===` and fails. On two validly constructed tests differing
only in that nested position, `a.equals(b)` is true but `b.equals(a)` is
false: symmetry fails. -/
theorem C5_equals_asymmetric :
    Test.make stubRegistry c5InitA = Except.ok c5TestA ∧
    Test.make stubRegistry c5InitB = Except.ok c5TestB ∧
    deepEqual (.obj []) (.num 5) = true ∧
    deepEqual (.num 5) (.obj []) = false ∧
    Test.equals c5TestA c5TestB = true ∧
    Test.equals c5TestB c5TestA = false := by
  refine ⟨by decide, by decide, by decide, by decide, by decide, by decide⟩

theorem primStrictEq_bool_false (v : JVal) :
    JVal.primStrictEq v (.bool false) = true ↔ v = .bool false := by
  cases v <;> simp [JVal.primStrictEq]

/-- C8: in the classification of a result that carries records, a detection
mismatch short-circuits before the arity check against the multiple
sentinel and before full structural equality: whatever the two items values
are (including the sentinel on both sides), a strict inequality of the
detected item types yields the failure "Detection returned wrong item type"
carrying the updated test. -/
theorem C8_detection_mismatch_first (reg : Registry) (test : Test) (r : Collected)
    (base : Test) (dit its : JVal)
    (hit : r.items.truthy = true)
    (hbase : Test.ofTest reg test = Except.ok base)
    (hdit : checkDetectedItemType r.detectedItemType = Except.ok dit)
    (hits : checkItems reg r.items = Except.ok its)
    (hmis : JVal.primStrictEq test.detectedItemType r.detectedItemType = false) :
    classifyResult reg test r =
      Except.ok ⟨.failure, some (.str "Detection returned wrong item type"),
        some ⟨base.type, base.defer, base.input, dit, its⟩⟩ := by
  simp [classifyResult, hit, hbase, hdit, hits, hmis]
  rfl

/-- C8, witness: a test expecting the multiple sentinel with detected type
"book", against a result observing "journalArticle" with the multiple
sentinel, fails with the detection reason rather than passing the arity
check. -/
theorem C8_detection_mismatch_first_witness :
    classifyResult stubRegistry ⟨"web", .undef, .str "u", .str "book", .str "multiple"⟩
        ⟨.str "journalArticle", .str "multiple", .undef⟩ =
      Except.ok ⟨.failure, some (.str "Detection returned wrong item type"),
        some ⟨"web", .undef, .str "u", .str "journalArticle", .str "multiple"⟩⟩ :=
  C8_detection_mismatch_first stubRegistry
    ⟨"web", .undef, .str "u", .str "book", .str "multiple"⟩
    ⟨.str "journalArticle", .str "multiple", .undef⟩
    ⟨"web", .undef, .str "u", .str "book", .str "multiple"⟩
    (.str "journalArticle") (.str "multiple")
    (by decide) (by decide) (by decide) (by decide) (by decide)

/-- C9: a web run that collected no records succeeds exactly in the
expected-detection-failure scenario — no detected type and an expectation
that is strictly the boolean `false` — and in every other no-records case
fails carrying the collected reason. -/
theorem C9_no_records (reg : Registry) (test : Test) (r : Collected)
    (hweb : test.type = "web") (hni : r.items.truthy = false) :
    (r.detectedItemType.truthy = false → test.detectedItemType = .bool false →
      TranslatorTester.run reg test (.returned r) =
        Except.ok ⟨.success, none, none⟩) ∧
    (r.detectedItemType.truthy = true ∨ test.detectedItemType ≠ .bool false →
      TranslatorTester.run reg test (.returned r) =
        Except.ok ⟨.failure, some r.reason, none⟩) := by
  constructor
  · intro hd hf
    simp [TranslatorTester.run, hweb, classifyResult, hni, hd,
      (primStrictEq_bool_false test.detectedItemType).mpr hf]
  · intro h
    rcases h with h | h
    · simp [TranslatorTester.run, hweb, classifyResult, hni, h]
    · have : JVal.primStrictEq test.detectedItemType (.bool false) = false := by
        rcases hh : JVal.primStrictEq test.detectedItemType (.bool false) with _ | _
        · rfl
        · exact absurd ((primStrictEq_bool_false test.detectedItemType).mp hh) h
      simp [TranslatorTester.run, hweb, classifyResult, hni, this]

/-- C9, witness: the expected-failure scenario succeeds; the same result
against a test expecting a concrete type fails with the collected reason. -/
theorem C9_no_records_witness :
    TranslatorTester.run stubRegistry ⟨"web", .undef, .str "u", .bool false, .arr []⟩
        (.returned ⟨.undef, .null, .str "Detection failed"⟩) =
      Except.ok ⟨.success, none, none⟩ ∧
    TranslatorTester.run stubRegistry ⟨"web", .undef, .str "u", .str "book", .arr []⟩
        (.returned ⟨.undef, .null, .str "Detection failed"⟩) =
      Except.ok ⟨.failure, some (.str "Detection failed"), none⟩ :=
  ⟨(C9_no_records stubRegistry ⟨"web", .undef, .str "u", .bool false, .arr []⟩
      ⟨.undef, .null, .str "Detection failed"⟩ rfl rfl).1 rfl rfl,
   (C9_no_records stubRegistry ⟨"web", .undef, .str "u", .str "book", .arr []⟩
      ⟨.undef, .null, .str "Detection failed"⟩ rfl rfl).2 (Or.inr (by decide))⟩

theorem lookupField_mem {fs : List (String × JVal)} {k : String} {v : JVal}
    (h : lookupField fs k = some v) : (k, v) ∈ fs := by
  induction fs with
  | nil => simp [lookupField] at h
  | cons p rest ih =>
    rcases p with ⟨k', v'⟩
    by_cases hk : k' = k
    · subst hk
      simp [lookupField] at h
      subst h
      exact List.mem_cons_self _ _
    · simp [lookupField, hk] at h
      exact List.mem_cons_of_mem _ (ih h)

theorem lookupField_of_mem_nodup {fs : List (String × JVal)} {k : String} {v : JVal}
    (hnd : (fs.map Prod.fst).Nodup) (h : (k, v) ∈ fs) : lookupField fs k = some v := by
  induction fs with
  | nil => cases h
  | cons p rest ih =>
    rcases p with ⟨k', v'⟩
    rw [List.map_cons, List.nodup_cons] at hnd
    rcases List.mem_cons.mp h with h | h
    · rw [Prod.ext_iff] at h
      obtain ⟨h1, h2⟩ := h
      simp at h1 h2
      subst h1; subst h2
      simp [lookupField]
    · have hk : k' ≠ k := by
        intro he
        subst he
        exact hnd.1 (List.mem_map.mpr ⟨(k', v), h, rfl⟩)
      simp [lookupField, hk]
      exact ih hnd.2 h

theorem lookupField_none_iff {fs : List (String × JVal)} {k : String} :
    lookupField fs k = none ↔ k ∉ fs.map Prod.fst := by
  induction fs with
  | nil => simp [lookupField]
  | cons p rest ih =>
    rcases p with ⟨k', v'⟩
    by_cases hk : k' = k
    · subst hk
      simp [lookupField]
    · have h2 : ¬k = k' := fun hh => hk hh.symm
      simp [lookupField, hk, ih, h2]

theorem mem_delFields {fs : List (String × JVal)} {k : String} {p : String × JVal} :
    p ∈ delFields fs k ↔ p ∈ fs ∧ p.1 ≠ k := by
  simp [delFields, List.mem_filter]

theorem mem_updFields {fs : List (String × JVal)} {k : String} {v : JVal}
    {p : String × JVal} (h : p ∈ updFields fs k v) : p ∈ fs ∨ p = (k, v) := by
  induction fs with
  | nil => simp [updFields] at h; simp [h]
  | cons q rest ih =>
    rcases q with ⟨k', v'⟩
    by_cases hk : k' = k
    · simp [updFields, hk] at h
      rcases h with h | h
      · right; simp [h, hk]
      · left; exact List.mem_cons_of_mem _ h
    · simp [updFields, hk] at h
      rcases h with h | h
      · left; simp [h]
      · rcases ih h with h | h
        · left; exact List.mem_cons_of_mem _ h
        · right; exact h

theorem keys_updFields (fs : List (String × JVal)) (k : String) (v : JVal) :
    (updFields fs k v).map Prod.fst =
      if k ∈ fs.map Prod.fst then fs.map Prod.fst else fs.map Prod.fst ++ [k] := by
  induction fs with
  | nil => simp [updFields]
  | cons q rest ih =>
    rcases q with ⟨k', v'⟩
    by_cases hk : k' = k
    · simp [updFields, hk]
    · have hk2 : ¬k = k' := fun h => hk h.symm
      simp only [updFields, if_neg hk, List.map_cons, ih, List.mem_cons]
      by_cases hm : k ∈ rest.map Prod.fst <;> simp [hm, hk2]

theorem nodup_keys_updFields {fs : List (String × JVal)} {k : String} {v : JVal}
    (h : (fs.map Prod.fst).Nodup) : ((updFields fs k v).map Prod.fst).Nodup := by
  rw [keys_updFields]
  by_cases hm : k ∈ fs.map Prod.fst
  · simpa [hm]
  · rw [if_neg hm, List.nodup_append]
    refine ⟨h, List.nodup_singleton _, fun a ha hb => ?_⟩
    simp at hb
    subst hb
    exact hm ha

theorem keys_delFields_sublist (fs : List (String × JVal)) (k : String) :
    List.Sublist ((delFields fs k).map Prod.fst) (fs.map Prod.fst) :=
  List.Sublist.map _ (List.filter_sublist fs)

theorem nodup_keys_delFields {fs : List (String × JVal)} {k : String}
    (h : (fs.map Prod.fst).Nodup) : ((delFields fs k).map Prod.fst).Nodup :=
  (keys_delFields_sublist fs k).nodup h

theorem lookupField_updFields_self (fs : List (String × JVal)) (k : String) (v : JVal) :
    lookupField (updFields fs k v) k = some v := by
  induction fs with
  | nil => simp [updFields, lookupField]
  | cons q rest ih =>
    rcases q with ⟨k', v'⟩
    by_cases hk : k' = k <;> simp [updFields, lookupField, hk, ih]

theorem lookupField_updFields_ne (fs : List (String × JVal)) {k k' : String} (v : JVal)
    (h : k' ≠ k) : lookupField (updFields fs k v) k' = lookupField fs k' := by
  have h2 : ¬k = k' := fun hh => h hh.symm
  induction fs with
  | nil => simp [updFields, lookupField, h2]
  | cons q rest ih =>
    rcases q with ⟨k'', v''⟩
    by_cases hk : k'' = k
    · subst hk
      simp [updFields, lookupField, h2]
    · simp [updFields, lookupField, hk, ih]

theorem lookupField_delFields_self (fs : List (String × JVal)) (k : String) :
    lookupField (delFields fs k) k = none := by
  rw [lookupField_none_iff]
  intro h
  rcases List.mem_map.mp h with ⟨p, hp, he⟩
  exact (mem_delFields.mp hp).2 he

theorem lookupField_delFields_ne (fs : List (String × JVal)) {k k' : String}
    (h : k' ≠ k) : lookupField (delFields fs k) k' = lookupField fs k' := by
  induction fs with
  | nil => rfl
  | cons q rest ih =>
    rcases q with ⟨k'', v''⟩
    by_cases hk : k'' = k
    · subst hk
      have h2 : ¬k'' = k' := fun hh => h hh.symm
      have he : delFields ((k'', v'') :: rest) k'' = delFields rest k'' := by
        simp [delFields]
      rw [he, ih, lookupField]
      simp [h2]
    · have he : delFields ((k'', v'') :: rest) k = (k'', v'') :: delFields rest k := by
        simp [delFields, hk]
      rw [he]
      by_cases hk' : k'' = k'
      · simp [lookupField, hk']
      · simp [lookupField, hk', ih]

theorem updFields_self {fs : List (String × JVal)} {k : String} {v : JVal}
    (h : lookupField fs k = some v) : updFields fs k v = fs := by
  induction fs with
  | nil => simp [lookupField] at h
  | cons q rest ih =>
    rcases q with ⟨k', v'⟩
    by_cases hk : k' = k
    · subst hk
      simp [lookupField] at h
      simp [updFields, h]
    · simp [lookupField, hk] at h
      simp [updFields, hk, ih h]

theorem delFields_noop {fs : List (String × JVal)} {k : String}
    (h : lookupField fs k = none) : delFields fs k = fs := by
  rw [lookupField_none_iff] at h
  induction fs with
  | nil => rfl
  | cons q rest ih =>
    rcases q with ⟨k', v'⟩
    simp at h
    simp [delFields] at ih ⊢
    exact ⟨fun hh => h.1 hh.symm, ih h.2⟩

theorem jsonRT_ne_undef {v : JVal} (h : v ≠ .undef) : jsonRT v ≠ .undef := by
  cases v <;> simp [jsonRT] at h ⊢

theorem truthy_jsonRT (v : JVal) : (jsonRT v).truthy = v.truthy := by
  cases v <;> simp [jsonRT, JVal.truthy]

theorem jsonRTElems_cons (x : JVal) (l : List JVal) :
    jsonRTElems (x :: l) =
      (if x = .undef then .null else jsonRT x) :: jsonRTElems l := by
  cases x <;> simp [jsonRTElems]

theorem jsonRTFields_cons (k : String) (v : JVal) (l : List (String × JVal)) :
    jsonRTFields ((k, v) :: l) =
      if v = .undef then jsonRTFields l else (k, jsonRT v) :: jsonRTFields l := by
  cases v <;> simp [jsonRTFields]

theorem length_jsonRTFields_le (fs : List (String × JVal)) :
    (jsonRTFields fs).length ≤ fs.length := by
  induction fs with
  | nil => simp [jsonRTFields]
  | cons p rest ih =>
    rcases p with ⟨k, v⟩
    rw [jsonRTFields_cons]
    by_cases hv : v = .undef <;> simp [hv] <;> omega

theorem jsonRT_idem : ∀ v : JVal, jsonRT (jsonRT v) = jsonRT v := by
  intro v
  induction v using jval_ind with
  | hundef => rfl
  | hnull => rfl
  | hbool b => rfl
  | hnum n => rfl
  | hstr s => rfl
  | harr xs ih =>
    simp only [jsonRT]
    congr 1
    induction xs with
    | nil => rfl
    | cons x rest ihr =>
      have hrest := ihr (fun y hy => ih y (List.mem_cons_of_mem _ hy))
      rw [jsonRTElems_cons]
      by_cases hx : x = .undef
      · rw [if_pos hx, jsonRTElems_cons, if_neg (by simp), hrest]
        rfl
      · rw [if_neg hx, jsonRTElems_cons, if_neg (jsonRT_ne_undef hx),
          ih x (List.mem_cons_self _ _), hrest]
  | hobj fs ih =>
    simp only [jsonRT]
    congr 1
    induction fs with
    | nil => rfl
    | cons p rest ihr =>
      rcases p with ⟨k, v⟩
      have hrest := ihr (fun q hq => ih q (List.mem_cons_of_mem _ hq))
      rw [jsonRTFields_cons]
      by_cases hv : v = .undef
      · rw [if_pos hv, hrest]
      · rw [if_neg hv, jsonRTFields_cons, if_neg (jsonRT_ne_undef hv),
          ih (k, v) (List.mem_cons_self _ _), hrest]

theorem jsonRTFields_self_of {fs : List (String × JVal)}
    (h : ∀ p ∈ fs, p.2 ≠ .undef ∧ jsonRT p.2 = p.2) : jsonRTFields fs = fs := by
  induction fs with
  | nil => rfl
  | cons p rest ih =>
    rcases p with ⟨k, v⟩
    obtain ⟨h1, h2⟩ := h (k, v) (List.mem_cons_self _ _)
    rw [jsonRTFields_cons, if_neg h1, h2, ih (fun q hq => h q (List.mem_cons_of_mem _ hq))]

theorem jsonRTFields_self {fs : List (String × JVal)} (h : jsonRTFields fs = fs) :
    ∀ p ∈ fs, p.2 ≠ .undef ∧ jsonRT p.2 = p.2 := by
  induction fs with
  | nil => intro p hp; cases hp
  | cons q rest ih =>
    rcases q with ⟨k, v⟩
    rw [jsonRTFields_cons] at h
    by_cases hv : v = .undef
    · rw [if_pos hv] at h
      have hle := length_jsonRTFields_le rest
      have hlen := congrArg List.length h
      simp at hlen
      omega
    · rw [if_neg hv] at h
      have h1 : (k, jsonRT v) = (k, v) := List.head_eq_of_cons_eq h
      have h2 : jsonRTFields rest = rest := List.tail_eq_of_cons_eq h
      have hrt : jsonRT v = v := by
        rw [Prod.ext_iff] at h1
        exact h1.2
      intro p hp
      rcases List.mem_cons.mp hp with hp | hp
      · subst hp
        exact ⟨hv, hrt⟩
      · exact ih h2 p hp

theorem keys_jsonRTFields_sublist (fs : List (String × JVal)) :
    List.Sublist ((jsonRTFields fs).map Prod.fst) (fs.map Prod.fst) := by
  induction fs with
  | nil => simp [jsonRTFields]
  | cons p rest ih =>
    rcases p with ⟨k, v⟩
    rw [jsonRTFields_cons]
    by_cases hv : v = .undef
    · rw [if_pos hv]
      exact ih.trans (List.sublist_cons_self _ _)
    · rw [if_neg hv]
      simpa using ih.cons₂ k

theorem nodup_keys_jsonRTFields {fs : List (String × JVal)}
    (h : (fs.map Prod.fst).Nodup) : ((jsonRTFields fs).map Prod.fst).Nodup :=
  (keys_jsonRTFields_sublist fs).nodup h

theorem lookupField_jsonRTFields {fs : List (String × JVal)} {k : String} {v : JVal}
    (hl : lookupField fs k = some v) (hv : v ≠ .undef) :
    lookupField (jsonRTFields fs) k = some (jsonRT v) := by
  induction fs with
  | nil => simp [lookupField] at hl
  | cons p rest ih =>
    rcases p with ⟨k', v'⟩
    rw [jsonRTFields_cons]
    by_cases hk : k' = k
    · subst hk
      simp [lookupField] at hl
      subst hl
      rw [if_neg hv]
      simp [lookupField]
    · simp [lookupField, hk] at hl
      by_cases hv' : v' = .undef
      · rw [if_pos hv']
        exact ih hl
      · rw [if_neg hv']
        simp [lookupField, hk]
        exact ih hl

theorem lookupField_jsonRTFields_none {fs : List (String × JVal)} {k : String}
    (h : lookupField fs k = none) : lookupField (jsonRTFields fs) k = none := by
  rw [lookupField_none_iff] at h ⊢
  intro hm
  exact h ((keys_jsonRTFields_sublist fs).subset hm)

/-- The field-list form of the loop. -/
def runLoopFields (reg : Registry) (typeID : Nat) (fields : List String)
    (fs : List (String × JVal)) : List (String × JVal) :=
  fields.foldl (processFields reg typeID) fs

theorem runLoop_obj (reg : Registry) (t : Nat) (fields : List String)
    (fs : List (String × JVal)) :
    runLoop reg t fields (.obj fs) = .obj (runLoopFields reg t fields fs) := by
  induction fields generalizing fs with
  | nil => rfl
  | cons f rest ih =>
    rw [runLoop, runLoopFields, List.foldl_cons, List.foldl_cons]
    exact ih (processFields reg t fs f)

/-- An object entry on which one more pass of the removal loop has nothing
left to do: either the key is skip-listed, or the field is known to the
registry, truthy, valid for the type, and carries no separate subfield to
move to. -/
def SettledEntry (reg : Registry) (tID : Nat) (k : String) (v : JVal) : Prop :=
  k ∈ skipFields ∨
    (reg.getFieldID k ≠ 0 ∧ v.truthy = true ∧
     (reg.getFieldIDFromTypeAndBase tID (reg.getFieldID k) = 0 ∨
      reg.getFieldIDFromTypeAndBase tID (reg.getFieldID k) = reg.getFieldID k) ∧
     reg.isValidForType (reg.getFieldID k) tID = true)

theorem settled_rename {reg : Registry} (hcoh : Coherent reg) {t fid : Nat} {v : JVal}
    (hs : reg.getFieldIDFromTypeAndBase t fid ≠ 0) (hv : v.truthy = true) :
    SettledEntry reg t (reg.getName (reg.getFieldIDFromTypeAndBase t fid)) v := by
  right
  refine ⟨?_, hv, ?_, ?_⟩
  · rw [hcoh.name_id t fid hs]
    exact hs
  · rw [hcoh.name_id t fid hs]
    exact hcoh.sub_fix t fid hs
  · rw [hcoh.name_id t fid hs]
    exact hcoh.sub_valid t fid hs

theorem nodup_processFields {reg : Registry} {t : Nat} {fs : List (String × JVal)}
    {field : String} (h : (fs.map Prod.fst).Nodup) :
    ((processFields reg t fs field).map Prod.fst).Nodup := by
  unfold processFields
  repeat' split
  all_goals
    first
      | exact h
      | exact nodup_keys_delFields h
      | exact nodup_keys_delFields (nodup_keys_updFields h)

theorem processFields_skip {reg : Registry} {t : Nat} {fs : List (String × JVal)}
    {field : String} (h : field ∈ skipFields) :
    processFields reg t fs field = fs := by
  rw [processFields, if_pos h]

theorem processFields_none {reg : Registry} {t : Nat} {fs : List (String × JVal)}
    {field : String} (hskip : field ∉ skipFields)
    (hl : lookupField fs field = none) :
    processFields reg t fs field = fs := by
  simp only [processFields, if_neg hskip, hl]

theorem processFields_some {reg : Registry} {t : Nat} {fs : List (String × JVal)}
    {field : String} {v : JVal} (hskip : field ∉ skipFields)
    (hl : lookupField fs field = some v) :
    processFields reg t fs field =
      if reg.getFieldID field = 0 ∨ ¬v.truthy then delFields fs field
      else if reg.getFieldIDFromTypeAndBase t (reg.getFieldID field) ≠ 0 ∧
          reg.getFieldIDFromTypeAndBase t (reg.getFieldID field) ≠
            reg.getFieldID field then
        delFields
          (updFields fs
            (reg.getName (reg.getFieldIDFromTypeAndBase t (reg.getFieldID field)))
            v)
          field
      else if ¬reg.isValidForType (reg.getFieldID field) t then delFields fs field
      else fs := by
  simp only [processFields, if_neg hskip, hl]

theorem processFields_settled {reg : Registry} {t : Nat} {fs : List (String × JVal)}
    (field : String) (hall : ∀ p ∈ fs, SettledEntry reg t p.1 p.2) :
    processFields reg t fs field = fs := by
  by_cases hskip : field ∈ skipFields
  · exact processFields_skip hskip
  · cases hl : lookupField fs field with
    | none => exact processFields_none hskip hl
    | some v =>
      rcases hall _ (lookupField_mem hl) with hsk | hset
      · exact absurd hsk hskip
      · have hset' : reg.getFieldID field ≠ 0 ∧ v.truthy = true ∧
            (reg.getFieldIDFromTypeAndBase t (reg.getFieldID field) = 0 ∨
             reg.getFieldIDFromTypeAndBase t (reg.getFieldID field) =
               reg.getFieldID field) ∧
            reg.isValidForType (reg.getFieldID field) t = true := hset
        obtain ⟨h1, h2, h3, h4⟩ := hset'
        rw [processFields_some hskip hl]
        have hc1 : ¬(reg.getFieldID field = 0 ∨ ¬v.truthy) := by
          simp [h1, h2]
        have hc2 : ¬(reg.getFieldIDFromTypeAndBase t (reg.getFieldID field) ≠ 0 ∧
            reg.getFieldIDFromTypeAndBase t (reg.getFieldID field) ≠
              reg.getFieldID field) := by
          rcases h3 with h3 | h3 <;> simp [h3]
        rw [if_neg hc1, if_neg hc2, if_neg (by simp [h4])]

theorem runLoopFields_settled {reg : Registry} {t : Nat} {fs : List (String × JVal)}
    (fields : List String) (hall : ∀ p ∈ fs, SettledEntry reg t p.1 p.2) :
    runLoopFields reg t fields fs = fs := by
  induction fields with
  | nil => rfl
  | cons f rest ih =>
    rw [runLoopFields, List.foldl_cons, processFields_settled f hall]
    exact ih

theorem mem_eq_of_lookup_nodup {fs : List (String × JVal)} {k : String} {v : JVal}
    {p : String × JVal} (hnd : (fs.map Prod.fst).Nodup)
    (hl : lookupField fs k = some v) (hp : p ∈ fs) (hk : p.1 = k) : p = (k, v) := by
  rcases p with ⟨k', v'⟩
  simp at hk
  subst hk
  have := lookupField_of_mem_nodup hnd hp
  rw [hl] at this
  simp at this
  simp [this]

/-- Every entry surviving a run of the removal loop whose pending keys are
exhausted is settled: entries either get deleted, get renamed onto a
registry-coherent target, or pass all checks. -/
theorem runLoopFields_settles (reg : Registry) (t : Nat) (hcoh : Coherent reg) :
    ∀ (pending : List String) (fs : List (String × JVal)),
      (fs.map Prod.fst).Nodup →
      (∀ p ∈ fs, SettledEntry reg t p.1 p.2 ∨ p.1 ∈ pending) →
      ((runLoopFields reg t pending fs).map Prod.fst).Nodup ∧
      ∀ p ∈ runLoopFields reg t pending fs, SettledEntry reg t p.1 p.2 := by
  intro pending
  induction pending with
  | nil =>
    intro fs hnd hall
    refine ⟨hnd, fun p hp => ?_⟩
    rcases hall p hp with h | h
    · exact h
    · cases h
  | cons f rest ih =>
    intro fs hnd hall
    rw [show runLoopFields reg t (f :: rest) fs =
      runLoopFields reg t rest (processFields reg t fs f) from rfl]
    refine ih (processFields reg t fs f) (nodup_processFields hnd) ?_
    intro p hp
    by_cases hskip : f ∈ skipFields
    · rw [processFields_skip hskip] at hp
      rcases hall p hp with h | h
      · exact Or.inl h
      · rcases List.mem_cons.mp h with h | h
        · exact Or.inl (Or.inl (h ▸ hskip))
        · exact Or.inr h
    · cases hl : lookupField fs f with
      | none =>
        rw [processFields_none hskip hl] at hp
        rcases hall p hp with h | h
        · exact Or.inl h
        · rcases List.mem_cons.mp h with h | h
          · exfalso
            rw [lookupField_none_iff] at hl
            exact hl (h ▸ List.mem_map.mpr ⟨p, hp, rfl⟩)
          · exact Or.inr h
      | some v =>
        rw [processFields_some hskip hl] at hp
        by_cases hc1 : reg.getFieldID f = 0 ∨ ¬v.truthy
        · rw [if_pos hc1] at hp
          obtain ⟨hpf, hpk⟩ := mem_delFields.mp hp
          rcases hall p hpf with h | h
          · exact Or.inl h
          · rcases List.mem_cons.mp h with h | h
            · exact absurd h hpk
            · exact Or.inr h
        · rw [if_neg hc1] at hp
          have hv : v.truthy = true := by
            obtain ⟨_, h2⟩ := not_or.mp hc1
            simpa using h2
          by_cases hc2 : reg.getFieldIDFromTypeAndBase t (reg.getFieldID f) ≠ 0 ∧
              reg.getFieldIDFromTypeAndBase t (reg.getFieldID f) ≠ reg.getFieldID f
          · rw [if_pos hc2] at hp
            obtain ⟨hpf, hpk⟩ := mem_delFields.mp hp
            rcases mem_updFields hpf with h | h
            · rcases hall p h with h | h
              · exact Or.inl h
              · rcases List.mem_cons.mp h with h | h
                · exact absurd h hpk
                · exact Or.inr h
            · subst h
              exact Or.inl (settled_rename hcoh hc2.1 hv)
          · by_cases hc3 : ¬reg.isValidForType (reg.getFieldID f) t
            · rw [if_neg hc2, if_pos hc3] at hp
              obtain ⟨hpf, hpk⟩ := mem_delFields.mp hp
              rcases hall p hpf with h | h
              · exact Or.inl h
              · rcases List.mem_cons.mp h with h | h
                · exact absurd h hpk
                · exact Or.inr h
            · rw [if_neg hc2, if_neg hc3] at hp
              rcases hall p hp with h | h
              · exact Or.inl h
              · rcases List.mem_cons.mp h with h | h
                · have hpv := mem_eq_of_lookup_nodup hnd hl hp h
                  subst hpv
                  refine Or.inl (Or.inr ⟨?_, hv, ?_, ?_⟩)
                  · obtain ⟨h1, _⟩ := not_or.mp hc1
                    exact h1
                  · rcases not_and_or.mp hc2 with h | h
                    · exact Or.inl (not_not.mp h)
                    · exact Or.inr (not_not.mp h)
                  · simpa using hc3
                · exact Or.inr h

/-- Pairwise-distinct key list. -/
def distinctKeys : List String → Bool
  | [] => true
  | k :: rest => !rest.contains k && distinctKeys rest

mutual

/-- Well-formedness of a value as a JavaScript runtime value: no object
carries two entries for one key, at any depth. Every value an actual run
manipulates is well-formed; the modelling association lists are larger. -/
def wfJ : JVal → Bool
  | .obj fs => distinctKeys (fs.map Prod.fst) && wfFields fs
  | .arr xs => wfElems xs
  | _ => true

def wfFields : List (String × JVal) → Bool
  | [] => true
  | (_, v) :: rest => wfJ v && wfFields rest

def wfElems : List JVal → Bool
  | [] => true
  | v :: rest => wfJ v && wfElems rest

end

theorem distinctKeys_iff (l : List String) : distinctKeys l = true ↔ l.Nodup := by
  induction l with
  | nil => simp [distinctKeys]
  | cons k rest ih =>
    simp [distinctKeys, ih, List.elem_iff]

theorem wfFields_iff (fs : List (String × JVal)) :
    wfFields fs = true ↔ ∀ p ∈ fs, wfJ p.2 = true := by
  induction fs with
  | nil => simp [wfFields]
  | cons p rest ih =>
    rcases p with ⟨k, v⟩
    simp [wfFields, ih]

theorem wfElems_iff (xs : List JVal) :
    wfElems xs = true ↔ ∀ x ∈ xs, wfJ x = true := by
  induction xs with
  | nil => simp [wfElems]
  | cons x rest ih => simp [wfElems, ih]

theorem wfJ_obj {fs : List (String × JVal)} :
    wfJ (.obj fs) = true ↔ (fs.map Prod.fst).Nodup ∧ ∀ p ∈ fs, wfJ p.2 = true := by
  simp [wfJ, distinctKeys_iff, wfFields_iff]

theorem wfJ_arr {xs : List JVal} :
    wfJ (.arr xs) = true ↔ ∀ x ∈ xs, wfJ x = true := by
  simp [wfJ, wfElems_iff]

theorem length_jsonRTElems (l : List JVal) : (jsonRTElems l).length = l.length := by
  induction l with
  | nil => rfl
  | cons x rest ih => rw [jsonRTElems_cons]; simp [ih]

theorem mem_jsonRTElems {l : List JVal} {y : JVal} (h : y ∈ jsonRTElems l) :
    y = .null ∨ ∃ x ∈ l, y = jsonRT x := by
  induction l with
  | nil => simp [jsonRTElems] at h
  | cons x rest ih =>
    rw [jsonRTElems_cons] at h
    rcases List.mem_cons.mp h with h | h
    · by_cases hx : x = .undef
      · rw [if_pos hx] at h
        exact Or.inl h
      · rw [if_neg hx] at h
        exact Or.inr ⟨x, List.mem_cons_self _ _, h⟩
    · rcases ih h with h | ⟨z, hz, he⟩
      · exact Or.inl h
      · exact Or.inr ⟨z, List.mem_cons_of_mem _ hz, he⟩

theorem lookupField_jsonRTFields_undef {fs : List (String × JVal)} {k : String}
    (hnd : (fs.map Prod.fst).Nodup) (hl : lookupField fs k = some .undef) :
    lookupField (jsonRTFields fs) k = none := by
  induction fs with
  | nil => simp [lookupField] at hl
  | cons p rest ih =>
    rcases p with ⟨k', v'⟩
    rw [List.map_cons, List.nodup_cons] at hnd
    rw [jsonRTFields_cons]
    by_cases hk : k' = k
    · subst hk
      simp [lookupField] at hl
      rw [if_pos hl]
      rw [lookupField_none_iff]
      intro hm
      exact hnd.1 ((keys_jsonRTFields_sublist rest).subset hm)
    · simp [lookupField, hk] at hl
      by_cases hv : v' = .undef
      · rw [if_pos hv]
        exact ih hnd.2 hl
      · rw [if_neg hv]
        simp [lookupField, hk]
        exact ih hnd.2 hl

theorem lookup_delIfTruthy_self (gs : List (String × JVal)) (k : String) :
    ((lookupField (delIfTruthy gs k) k).getD .undef).truthy = false := by
  unfold delIfTruthy
  by_cases h : ((lookupField gs k).getD .undef).truthy
  · rw [if_pos h, lookupField_delFields_self]
    rfl
  · rw [if_neg h]
    simpa using h

theorem lookup_delIfTruthy_ne (gs : List (String × JVal)) {k k' : String}
    (h : k' ≠ k) : lookupField (delIfTruthy gs k) k' = lookupField gs k' := by
  unfold delIfTruthy
  split
  · exact lookupField_delFields_ne gs h
  · rfl

theorem nodup_delIfTruthy {gs : List (String × JVal)} {k : String}
    (h : (gs.map Prod.fst).Nodup) : ((delIfTruthy gs k).map Prod.fst).Nodup := by
  unfold delIfTruthy
  split
  · exact nodup_keys_delFields h
  · exact h

theorem lookup_docStep_document (gs : List (String × JVal)) :
    ((lookupField (docStep gs) "document").getD .undef).truthy = false := by
  unfold docStep
  by_cases h : ((lookupField gs "document").getD .undef).truthy
  · rw [if_pos h, lookupField_updFields_ne _ _ (by decide),
      lookupField_delFields_self]
    rfl
  · rw [if_neg h]
    simpa using h

theorem lookup_docStep_ne (gs : List (String × JVal)) {k : String}
    (h1 : k ≠ "document") (h2 : k ≠ "mimeType") :
    lookupField (docStep gs) k = lookupField gs k := by
  unfold docStep
  split
  · rw [lookupField_updFields_ne _ _ h2, lookupField_delFields_ne _ h1]
  · rfl

theorem nodup_docStep {gs : List (String × JVal)}
    (h : (gs.map Prod.fst).Nodup) : ((docStep gs).map Prod.fst).Nodup := by
  unfold docStep
  split
  · exact nodup_keys_updFields (nodup_keys_delFields h)
  · exact h

theorem nodup_fixAttachmentFields {gs : List (String × JVal)}
    (h : (gs.map Prod.fst).Nodup) :
    ((fixAttachmentFields gs).map Prod.fst).Nodup :=
  nodup_delIfTruthy (nodup_delIfTruthy (nodup_docStep h))

theorem fixAttachment_noop {gs : List (String × JVal)}
    (h1 : ((lookupField gs "document").getD .undef).truthy = false)
    (h2 : ((lookupField gs "url").getD .undef).truthy = false)
    (h3 : ((lookupField gs "complete").getD .undef).truthy = false) :
    fixAttachment (.obj gs) = .obj gs := by
  rw [fixAttachment]
  unfold fixAttachmentFields
  rw [show docStep gs = gs from by rw [docStep, if_neg (by simp [h1])],
    show delIfTruthy gs "url" = gs from by rw [delIfTruthy, if_neg (by simp [h2])],
    show delIfTruthy gs "complete" = gs from by
      rw [delIfTruthy, if_neg (by simp [h3])]]

theorem lookup_rt_falsy {fs : List (String × JVal)} {k : String}
    (hnd : (fs.map Prod.fst).Nodup)
    (h : ((lookupField fs k).getD .undef).truthy = false) :
    ((lookupField (jsonRTFields fs) k).getD .undef).truthy = false := by
  cases hl : lookupField fs k with
  | none => rw [lookupField_jsonRTFields_none hl]; rfl
  | some v =>
    by_cases hv : v = .undef
    · subst hv
      rw [lookupField_jsonRTFields_undef hnd hl]
      rfl
    · rw [lookupField_jsonRTFields hl hv]
      rw [hl] at h
      simp at h ⊢
      rw [truthy_jsonRT]
      exact h

/-- One more pass of the attachment loop body over the serialized image of
an already-processed attachment changes nothing. -/
theorem fixAttachment_rt_stable {x : JVal} (hwf : wfJ x = true) :
    fixAttachment (jsonRT (fixAttachment x)) = jsonRT (fixAttachment x) := by
  cases x with
  | obj gs =>
    have hnd : (gs.map Prod.fst).Nodup := (wfJ_obj.mp hwf).1
    rw [fixAttachment, jsonRT]
    have hnd3 : ((fixAttachmentFields gs).map Prod.fst).Nodup :=
      nodup_fixAttachmentFields hnd
    have hdoc : ((lookupField (fixAttachmentFields gs) "document").getD .undef).truthy
        = false := by
      unfold fixAttachmentFields
      rw [lookup_delIfTruthy_ne _ (by decide), lookup_delIfTruthy_ne _ (by decide)]
      exact lookup_docStep_document gs
    have hurl : ((lookupField (fixAttachmentFields gs) "url").getD .undef).truthy
        = false := by
      unfold fixAttachmentFields
      rw [lookup_delIfTruthy_ne _ (by decide)]
      exact lookup_delIfTruthy_self _ "url"
    have hcom : ((lookupField (fixAttachmentFields gs) "complete").getD .undef).truthy
        = false :=
      lookup_delIfTruthy_self _ "complete"
    exact fixAttachment_noop (lookup_rt_falsy hnd3 hdoc) (lookup_rt_falsy hnd3 hurl)
      (lookup_rt_falsy hnd3 hcom)
  | undef => rfl
  | null => rfl
  | bool b => rfl
  | num n => rfl
  | str s => rfl
  | arr xs => rfl

theorem cleanTag_canonical {s : String} (hs : s ≠ "") :
    cleanTag (.obj [("tag", .str s)]) = some (.obj [("tag", .str s)]) := by
  simp [cleanTag, lookupField, hs]

theorem mem_cleanTags {ts : List JVal} {x : JVal} (h : x ∈ cleanTags ts) :
    ∃ s, s ≠ "" ∧ x = .obj [("tag", .str s)] := by
  rw [cleanTags, List.mem_filterMap] at h
  obtain ⟨y, _, hy⟩ := h
  cases y with
  | str s =>
    rw [cleanTag] at hy
    by_cases hs : s = ""
    · simp [hs] at hy
    · rw [if_neg hs] at hy
      exact ⟨s, hs, (Option.some.inj hy).symm⟩
  | obj fs =>
    rw [cleanTag] at hy
    revert hy
    cases hv : (lookupField fs "tag").getD .undef with
    | str s =>
      intro hy
      by_cases hs : s = ""
      · simp [hs] at hy
      · simp [hs] at hy
        exact ⟨s, hs, hy.symm⟩
    | undef => intro hy; cases hy
    | null => intro hy; cases hy
    | bool b => intro hy; cases hy
    | num n => intro hy; cases hy
    | arr l => intro hy; cases hy
    | obj l => intro hy; cases hy
  | undef => cases hy
  | null => cases hy
  | bool b => cases hy
  | num n => cases hy
  | arr l => cases hy

theorem cleanTags_fixpoint {l : List JVal} (h : ∀ x ∈ l, cleanTag x = some x) :
    cleanTags l = l := by
  induction l with
  | nil => rfl
  | cons x rest ih =>
    rw [cleanTags, List.filterMap_cons, h x (List.mem_cons_self _ _)]
    rw [cleanTags] at ih
    rw [ih (fun y hy => h y (List.mem_cons_of_mem _ hy))]

theorem mem_sortTags {l : List JVal} {x : JVal} : x ∈ sortTags l ↔ x ∈ l :=
  (List.perm_insertionSort tagLE l).mem_iff

theorem sortTags_sorted (l : List JVal) : List.Sorted tagLE (sortTags l) :=
  List.sorted_insertionSort tagLE l

theorem sortTags_idem (l : List JVal) : sortTags (sortTags l) = sortTags l :=
  List.Sorted.insertionSort_eq (sortTags_sorted l)

theorem canonical_tags_fixpoint (ts : List JVal) :
    cleanTags (sortTags (cleanTags ts)) = sortTags (cleanTags ts) :=
  cleanTags_fixpoint (fun x hx => by
    obtain ⟨s, hs, he⟩ := mem_cleanTags (mem_sortTags.mp hx)
    subst he
    exact cleanTag_canonical hs)

theorem jsonRTElems_self_of {l : List JVal}
    (h : ∀ x ∈ l, x ≠ .undef ∧ jsonRT x = x) : jsonRTElems l = l := by
  induction l with
  | nil => rfl
  | cons x rest ih =>
    obtain ⟨h1, h2⟩ := h x (List.mem_cons_self _ _)
    rw [jsonRTElems_cons, if_neg h1, h2,
      ih (fun y hy => h y (List.mem_cons_of_mem _ hy))]

theorem canonical_tags_rt (ts : List JVal) :
    jsonRT (.arr (sortTags (cleanTags ts))) = .arr (sortTags (cleanTags ts)) := by
  rw [jsonRT]
  congr 1
  refine jsonRTElems_self_of (fun x hx => ?_)
  obtain ⟨s, _, he⟩ := mem_cleanTags (mem_sortTags.mp hx)
  subst he
  exact ⟨by simp, rfl⟩

theorem mem_processFields_val {reg : Registry} {t : Nat} {fs : List (String × JVal)}
    {field : String} {p : String × JVal} (hp : p ∈ processFields reg t fs field) :
    ∃ q ∈ fs, p.2 = q.2 := by
  by_cases hskip : field ∈ skipFields
  · rw [processFields_skip hskip] at hp
    exact ⟨p, hp, rfl⟩
  · cases hl : lookupField fs field with
    | none =>
      rw [processFields_none hskip hl] at hp
      exact ⟨p, hp, rfl⟩
    | some v =>
      rw [processFields_some hskip hl] at hp
      have hv : (field, v) ∈ fs := lookupField_mem hl
      revert hp
      repeat' split
      all_goals intro hp
      · exact ⟨p, (mem_delFields.mp hp).1, rfl⟩
      · obtain ⟨hpf, _⟩ := mem_delFields.mp hp
        rcases mem_updFields hpf with h | h
        · exact ⟨p, h, rfl⟩
        · subst h
          exact ⟨(field, v), hv, rfl⟩
      · exact ⟨p, (mem_delFields.mp hp).1, rfl⟩
      · exact ⟨p, hp, rfl⟩

theorem mem_runLoopFields_val {reg : Registry} {t : Nat} :
    ∀ {pending : List String} {fs : List (String × JVal)} {p : String × JVal},
      p ∈ runLoopFields reg t pending fs → ∃ q ∈ fs, p.2 = q.2 := by
  intro pending
  induction pending with
  | nil => intro fs p hp; exact ⟨p, hp, rfl⟩
  | cons f rest ih =>
    intro fs p hp
    rw [show runLoopFields reg t (f :: rest) fs =
      runLoopFields reg t rest (processFields reg t fs f) from rfl] at hp
    obtain ⟨q, hq, he⟩ := ih hp
    obtain ⟨q', hq', he'⟩ := mem_processFields_val hq
    exact ⟨q', hq', he.trans he'⟩

theorem mem_keys_delFields_of {fs : List (String × JVal)} {field k : String}
    (hm : k ∈ fs.map Prod.fst) (hne : k ≠ field) :
    k ∈ (delFields fs field).map Prod.fst := by
  obtain ⟨p, hp, he⟩ := List.mem_map.mp hm
  exact List.mem_map.mpr ⟨p, mem_delFields.mpr ⟨hp, he ▸ hne⟩, he⟩

theorem mem_keys_updFields_of {fs : List (String × JVal)} {key k : String}
    {v : JVal} (hm : k ∈ fs.map Prod.fst) :
    k ∈ (updFields fs key v).map Prod.fst := by
  rw [keys_updFields]
  split
  · exact hm
  · exact List.mem_append_left _ hm

theorem lookupField_processFields_skip {reg : Registry} {t : Nat}
    {fs : List (String × JVal)} {field k : String} (hcoh : Coherent reg)
    (hk : k ∈ skipFields) :
    lookupField (processFields reg t fs field) k = lookupField fs k := by
  by_cases hskip : field ∈ skipFields
  · rw [processFields_skip hskip]
  · have hkf : k ≠ field := fun he => hskip (he ▸ hk)
    cases hl : lookupField fs field with
    | none => rw [processFields_none hskip hl]
    | some v =>
      rw [processFields_some hskip hl]
      by_cases hc1 : reg.getFieldID field = 0 ∨ ¬v.truthy
      · rw [if_pos hc1]
        exact lookupField_delFields_ne fs hkf
      · rw [if_neg hc1]
        by_cases hc2 : reg.getFieldIDFromTypeAndBase t (reg.getFieldID field) ≠ 0 ∧
            reg.getFieldIDFromTypeAndBase t (reg.getFieldID field) ≠
              reg.getFieldID field
        · rw [if_pos hc2]
          have hname : k ≠ reg.getName
              (reg.getFieldIDFromTypeAndBase t (reg.getFieldID field)) := by
            intro he
            exact hcoh.name_not_skip t (reg.getFieldID field) hc2.1 (he ▸ hk)
          rw [lookupField_delFields_ne _ hkf, lookupField_updFields_ne _ _ hname]
        · rw [if_neg hc2]
          by_cases hc3 : ¬reg.isValidForType (reg.getFieldID field) t
          · rw [if_pos hc3]
            exact lookupField_delFields_ne fs hkf
          · rw [if_neg hc3]

theorem lookupField_runLoopFields_skip {reg : Registry} {t : Nat} {k : String}
    (hcoh : Coherent reg) (hk : k ∈ skipFields) :
    ∀ (pending : List String) (fs : List (String × JVal)),
      lookupField (runLoopFields reg t pending fs) k = lookupField fs k := by
  intro pending
  induction pending with
  | nil => intro fs; rfl
  | cons f rest ih =>
    intro fs
    rw [show runLoopFields reg t (f :: rest) fs =
      runLoopFields reg t rest (processFields reg t fs f) from rfl, ih,
      lookupField_processFields_skip hcoh hk]

theorem key_mem_processFields {reg : Registry} {t : Nat} {fs : List (String × JVal)}
    {field k : String} (hk : k ∈ skipFields) (hm : k ∈ fs.map Prod.fst) :
    k ∈ (processFields reg t fs field).map Prod.fst := by
  by_cases hskip : field ∈ skipFields
  · rw [processFields_skip hskip]
    exact hm
  · have hkf : k ≠ field := fun he => hskip (he ▸ hk)
    cases hl : lookupField fs field with
    | none => rw [processFields_none hskip hl]; exact hm
    | some v =>
      rw [processFields_some hskip hl]
      repeat' split
      · exact mem_keys_delFields_of hm hkf
      · exact mem_keys_delFields_of (mem_keys_updFields_of hm) hkf
      · exact mem_keys_delFields_of hm hkf
      · exact hm

theorem key_mem_runLoopFields (reg : Registry) (t : Nat) {k : String}
    (hk : k ∈ skipFields) :
    ∀ (pending : List String) (fs : List (String × JVal)),
      k ∈ fs.map Prod.fst → k ∈ (runLoopFields reg t pending fs).map Prod.fst := by
  intro pending
  induction pending with
  | nil => intro fs hm; exact hm
  | cons f rest ih =>
    intro fs hm
    rw [show runLoopFields reg t (f :: rest) fs =
      runLoopFields reg t rest (processFields reg t fs f) from rfl]
    exact ih _ (key_mem_processFields hk hm)

theorem jsHasOwn_obj {fs : List (String × JVal)} {k : String} :
    jsHasOwn (.obj fs) k = true ↔ k ∈ fs.map Prod.fst := by
  simp [jsHasOwn, List.any_eq_true, List.mem_map]

theorem fixAttachments_eq (fs : List (String × JVal)) :
    ∃ fs1, fixAttachments (.obj fs) = .obj fs1 ∧
      ((∃ xs, lookupField fs "attachments" = some (.arr xs) ∧ xs ≠ [] ∧
          fs1 = updFields fs "attachments" (.arr (xs.map fixAttachment))) ∨
       (fs1 = fs ∧ ∀ xs, lookupField fs "attachments" = some (.arr xs) → xs = [])) := by
  cases hl : lookupField fs "attachments" with
  | none =>
    exact ⟨fs, by simp only [fixAttachments, hl], Or.inr ⟨rfl, fun xs h => by cases h⟩⟩
  | some v =>
    cases v with
    | arr xs =>
      by_cases hxs : xs.length ≠ 0
      · refine ⟨updFields fs "attachments" (.arr (xs.map fixAttachment)), ?_,
          Or.inl ⟨xs, rfl, ?_, rfl⟩⟩
        · simp only [fixAttachments, hl]
          rw [if_pos hxs]
        · intro h
          exact hxs (by rw [h]; rfl)
      · refine ⟨fs, ?_, Or.inr ⟨rfl, fun ys h => ?_⟩⟩
        · simp only [fixAttachments, hl]
          rw [if_neg hxs]
        · have hxy : xs = ys := by simpa using h
          subst hxy
          exact List.length_eq_zero.mp (not_ne_iff.mp hxs)
    | undef => exact ⟨fs, by simp only [fixAttachments, hl], Or.inr ⟨rfl, fun xs h => by simp at h⟩⟩
    | null => exact ⟨fs, by simp only [fixAttachments, hl], Or.inr ⟨rfl, fun xs h => by simp at h⟩⟩
    | bool b => exact ⟨fs, by simp only [fixAttachments, hl], Or.inr ⟨rfl, fun xs h => by simp at h⟩⟩
    | num n => exact ⟨fs, by simp only [fixAttachments, hl], Or.inr ⟨rfl, fun xs h => by simp at h⟩⟩
    | str s => exact ⟨fs, by simp only [fixAttachments, hl], Or.inr ⟨rfl, fun xs h => by simp at h⟩⟩
    | obj gs => exact ⟨fs, by simp only [fixAttachments, hl], Or.inr ⟨rfl, fun xs h => by simp at h⟩⟩

theorem tagsStep_eq (fs : List (String × JVal)) :
    ∃ gs, tagsStep (.obj fs) = .obj gs ∧
      ((∃ ts, lookupField fs "tags" = some (.arr ts) ∧
          gs = updFields fs "tags" (.arr (sortTags (cleanTags ts)))) ∨
       (gs = fs ∧ ∀ ts, lookupField fs "tags" ≠ some (.arr ts))) := by
  cases hl : lookupField fs "tags" with
  | none =>
    exact ⟨fs, by simp only [tagsStep, hl], Or.inr ⟨rfl, fun ts h => by cases h⟩⟩
  | some v =>
    cases v with
    | arr ts =>
      exact ⟨updFields fs "tags" (.arr (sortTags (cleanTags ts))),
        by simp only [tagsStep, hl], Or.inl ⟨ts, rfl, rfl⟩⟩
    | undef => exact ⟨fs, by simp only [tagsStep, hl], Or.inr ⟨rfl, fun ts h => by simp at h⟩⟩
    | null => exact ⟨fs, by simp only [tagsStep, hl], Or.inr ⟨rfl, fun ts h => by simp at h⟩⟩
    | bool b => exact ⟨fs, by simp only [tagsStep, hl], Or.inr ⟨rfl, fun ts h => by simp at h⟩⟩
    | num n => exact ⟨fs, by simp only [tagsStep, hl], Or.inr ⟨rfl, fun ts h => by simp at h⟩⟩
    | str s => exact ⟨fs, by simp only [tagsStep, hl], Or.inr ⟨rfl, fun ts h => by simp at h⟩⟩
    | obj gs => exact ⟨fs, by simp only [tagsStep, hl], Or.inr ⟨rfl, fun ts h => by simp at h⟩⟩

/-- The output of `sanitizeItem` on an object, staged. -/
theorem sanitizeItem_obj (reg : Registry) (fs1 : List (String × JVal))
    {fs : List (String × JVal)}
    (hfix : fixAttachments (.obj fs) = .obj fs1) :
    sanitizeItem reg (.obj fs) =
      tagsStep (.obj
        (delFields
          (runLoopFields reg
            (reg.getTypeID (jsGet (.obj (jsonRTFields fs1)) "itemType"))
            ((jsonRTFields fs1).map Prod.fst)
            (jsonRTFields fs1))
          "accessDate")) := by
  simp only [sanitizeItem, hfix]
  rw [show jsonRT (.obj fs1) = .obj (jsonRTFields fs1) from rfl]
  rw [runLoop_obj]
  rfl

/-- C3 (amended): the skip-listed meta fields are exempt from the
registry-driven removal pass: any of them present on the input record with a
defined (serializable) value is still present on the normalized record —
with its contents possibly rewritten in the case of the attachments and tags
lists — rather than deleted. -/
theorem C3_skip_fields_preserved (reg : Registry) (fs : List (String × JVal))
    (k : String) (v : JVal) (hk : k ∈ skipFields)
    (hl : lookupField fs k = some v) (hv : v ≠ .undef) :
    jsHasOwn (sanitizeItem reg (.obj fs)) k = true := by
  obtain ⟨fs1, hfix, hcase⟩ := fixAttachments_eq fs
  have hl1 : ∃ v1, lookupField fs1 k = some v1 ∧ v1 ≠ .undef := by
    rcases hcase with ⟨xs, hatt, hne, he⟩ | ⟨he, _⟩
    · subst he
      by_cases hka : k = "attachments"
      · subst hka
        exact ⟨_, lookupField_updFields_self fs _ _, by simp⟩
      · rw [lookupField_updFields_ne _ _ hka]
        exact ⟨v, hl, hv⟩
    · subst he
      exact ⟨v, hl, hv⟩
  obtain ⟨v1, hl1, hv1⟩ := hl1
  have hmem2 : k ∈ (jsonRTFields fs1).map Prod.fst :=
    List.mem_map.mpr ⟨(k, jsonRT v1), lookupField_mem (lookupField_jsonRTFields hl1 hv1), rfl⟩
  rw [sanitizeItem_obj reg fs1 hfix]
  have hmem3 := key_mem_runLoopFields reg
    (reg.getTypeID (jsGet (.obj (jsonRTFields fs1)) "itemType")) hk
    ((jsonRTFields fs1).map Prod.fst) (jsonRTFields fs1) hmem2
  have hka : k ≠ "accessDate" := by
    rintro rfl
    revert hk
    decide
  have hmem4 := mem_keys_delFields_of hmem3 hka
  obtain ⟨gs, hts, hcase2⟩ := tagsStep_eq
    (delFields (runLoopFields reg
      (reg.getTypeID (jsGet (.obj (jsonRTFields fs1)) "itemType"))
      ((jsonRTFields fs1).map Prod.fst) (jsonRTFields fs1)) "accessDate")
  rw [hts, jsHasOwn_obj]
  rcases hcase2 with ⟨ts, _, he⟩ | ⟨he, _⟩
  · subst he
    exact mem_keys_updFields_of hmem4
  · subst he
    exact hmem4

/-- C3, witness for the amended theorem: the creators list of `c3Item`
survives normalization. -/
theorem C3_skip_fields_preserved_witness :
    jsHasOwn (sanitizeItem stubRegistry
      (.obj [("itemType", .str "book"), ("creators", .arr [.obj [("lastName", .str "P")]]),
             ("note", .str "a note"), ("seeAlso", .arr [])])) "creators" = true :=
  C3_skip_fields_preserved stubRegistry
    [("itemType", .str "book"), ("creators", .arr [.obj [("lastName", .str "P")]]),
     ("note", .str "a note"), ("seeAlso", .arr [])]
    "creators" (.arr [.obj [("lastName", .str "P")]])
    (by decide) (by decide) (by decide)

theorem sanitizeItem_arr (reg : Registry) (xs : List JVal) :
    sanitizeItem reg (.arr xs) = .arr (jsonRTElems xs) := rfl

theorem sanitizeItem_undef (reg : Registry) : sanitizeItem reg .undef = .undef := rfl

theorem sanitizeItem_null (reg : Registry) : sanitizeItem reg .null = .null := rfl

theorem sanitizeItem_bool (reg : Registry) (b : Bool) :
    sanitizeItem reg (.bool b) = .bool b := rfl

theorem sanitizeItem_num (reg : Registry) (n : Int) :
    sanitizeItem reg (.num n) = .num n := rfl

theorem sanitizeItem_str (reg : Registry) (s : String) :
    sanitizeItem reg (.str s) = .str s := rfl

/-- An object on which every stage of `sanitizeItem` has nothing left to do
is a fixpoint of it. -/
theorem sanitizeItem_fixpoint (reg : Registry) {fs5 : List (String × JVal)} {t : Nat}
    (htid : reg.getTypeID (jsGet (.obj fs5) "itemType") = t)
    (hset5 : ∀ p ∈ fs5, SettledEntry reg t p.1 p.2)
    (hstable5 : jsonRTFields fs5 = fs5)
    (hfix2 : fixAttachments (.obj fs5) = .obj fs5)
    (hacc : lookupField fs5 "accessDate" = none)
    (htags : (∃ ts, lookupField fs5 "tags" = some (.arr ts) ∧
        sortTags (cleanTags ts) = ts) ∨
      ∀ ts, lookupField fs5 "tags" ≠ some (.arr ts)) :
    sanitizeItem reg (.obj fs5) = .obj fs5 := by
  rw [sanitizeItem_obj reg fs5 hfix2, hstable5, htid,
    runLoopFields_settled _ hset5, delFields_noop hacc]
  rcases htags with ⟨ts, hl, hfixts⟩ | hno
  · simp only [tagsStep, hl, hfixts]
    exact congrArg _ (updFields_self hl)
  · cases hl : lookupField fs5 "tags" with
    | none => simp only [tagsStep, hl]
    | some v =>
      cases v with
      | arr ts => exact absurd hl (hno ts)
      | undef => simp only [tagsStep, hl]
      | null => simp only [tagsStep, hl]
      | bool b => simp only [tagsStep, hl]
      | num n => simp only [tagsStep, hl]
      | str s => simp only [tagsStep, hl]
      | obj gs => simp only [tagsStep, hl]

theorem map_fix_id {f : JVal → JVal} :
    ∀ {l : List JVal}, (∀ x ∈ l, f x = x) → l.map f = l := by
  intro l
  induction l with
  | nil => intro _; rfl
  | cons x rest ih =>
    intro h
    rw [List.map_cons, h x (List.mem_cons_self _ _),
      ih (fun y hy => h y (List.mem_cons_of_mem _ hy))]

/-- Normalization is idempotent on well-formed records, given a coherent
field registry. -/
theorem sanitizeItem_idem (reg : Registry) (hcoh : Coherent reg) :
    ∀ {item : JVal}, wfJ item = true →
      sanitizeItem reg (sanitizeItem reg item) = sanitizeItem reg item := by
  intro item hwf
  cases item with
  | undef => rfl
  | null => rfl
  | bool b => rfl
  | num n => rfl
  | str s => rfl
  | arr xs =>
    rw [sanitizeItem_arr, sanitizeItem_arr]
    have h := jsonRT_idem (.arr xs)
    simpa [jsonRT] using h
  | obj fs =>
    obtain ⟨hnd, hvals⟩ := wfJ_obj.mp hwf
    obtain ⟨fs1, hfix, hcase⟩ := fixAttachments_eq fs
    have hnd1 : (fs1.map Prod.fst).Nodup := by
      rcases hcase with ⟨xs, hatt, hne, rfl⟩ | ⟨rfl, _⟩
      · exact nodup_keys_updFields hnd
      · exact hnd
    set fs2 := jsonRTFields fs1 with hfs2
    have hnd2 : (fs2.map Prod.fst).Nodup := nodup_keys_jsonRTFields hnd1
    have hstable2 : jsonRTFields fs2 = fs2 := by
      have h := jsonRT_idem (.obj fs1)
      rw [hfs2]
      simpa [jsonRT] using h
    set t := reg.getTypeID (jsGet (.obj fs2) "itemType") with htdef
    set fs3 := runLoopFields reg t (fs2.map Prod.fst) fs2 with hfs3
    obtain ⟨hnd3, hset3⟩ := runLoopFields_settles reg t hcoh (fs2.map Prod.fst) fs2
      hnd2 (fun p hp => Or.inr (List.mem_map.mpr ⟨p, hp, rfl⟩))
    set fs4 := delFields fs3 "accessDate" with hfs4
    obtain ⟨fs5, hts, hcase5⟩ := tagsStep_eq fs4
    have hsan1 : sanitizeItem reg (.obj fs) = .obj fs5 := by
      rw [sanitizeItem_obj reg fs1 hfix, ← hfs2, ← htdef, ← hfs3, ← hfs4, hts]
    have hset4 : ∀ p ∈ fs4, SettledEntry reg t p.1 p.2 := fun p hp =>
      hset3 p (mem_delFields.mp hp).1
    have hset5 : ∀ p ∈ fs5, SettledEntry reg t p.1 p.2 := by
      rcases hcase5 with ⟨ts, hlt, rfl⟩ | ⟨rfl, _⟩
      · intro p hp
        rcases mem_updFields hp with h | rfl
        · exact hset4 p h
        · refine Or.inl ?_
          show "tags" ∈ skipFields
          decide
      · exact hset4
    have hvals4 : ∀ p ∈ fs4, p.2 ≠ JVal.undef ∧ jsonRT p.2 = p.2 := by
      intro p hp
      obtain ⟨q, hq, he⟩ := mem_runLoopFields_val (mem_delFields.mp hp).1
      rw [he]
      exact jsonRTFields_self hstable2 q hq
    have hvals5 : ∀ p ∈ fs5, p.2 ≠ JVal.undef ∧ jsonRT p.2 = p.2 := by
      rcases hcase5 with ⟨ts, hlt, rfl⟩ | ⟨rfl, _⟩
      · intro p hp
        rcases mem_updFields hp with h | rfl
        · exact hvals4 p h
        · exact ⟨by simp, canonical_tags_rt ts⟩
      · exact hvals4
    have hstable5 : jsonRTFields fs5 = fs5 := jsonRTFields_self_of hvals5
    have hitem5 : lookupField fs5 "itemType" = lookupField fs2 "itemType" := by
      have h3 : lookupField fs3 "itemType" = lookupField fs2 "itemType" :=
        lookupField_runLoopFields_skip hcoh (by decide) _ fs2
      have h4 : lookupField fs4 "itemType" = lookupField fs3 "itemType" :=
        lookupField_delFields_ne _ (by decide)
      rcases hcase5 with ⟨ts, hlt, rfl⟩ | ⟨rfl, _⟩
      · rw [lookupField_updFields_ne _ _ (by decide), h4, h3]
      · rw [h4, h3]
    have htid5 : reg.getTypeID (jsGet (.obj fs5) "itemType") = t := by
      rw [show jsGet (.obj fs5) "itemType" =
        (lookupField fs5 "itemType").getD .undef from rfl, hitem5, htdef]
      rfl
    have hacc5 : lookupField fs5 "accessDate" = none := by
      have h4 : lookupField fs4 "accessDate" = none := lookupField_delFields_self _ _
      rcases hcase5 with ⟨ts, hlt, rfl⟩ | ⟨rfl, _⟩
      · rw [lookupField_updFields_ne _ _ (by decide)]
        exact h4
      · exact h4
    have hatt5 : lookupField fs5 "attachments" = lookupField fs2 "attachments" := by
      have h3 : lookupField fs3 "attachments" = lookupField fs2 "attachments" :=
        lookupField_runLoopFields_skip hcoh (by decide) _ fs2
      have h4 : lookupField fs4 "attachments" = lookupField fs3 "attachments" :=
        lookupField_delFields_ne _ (by decide)
      rcases hcase5 with ⟨ts, hlt, rfl⟩ | ⟨rfl, _⟩
      · rw [lookupField_updFields_ne _ _ (by decide), h4, h3]
      · rw [h4, h3]
    have hfix2 : fixAttachments (.obj fs5) = .obj fs5 := by
      rcases hcase with ⟨xs, hatt, hne, heq1⟩ | ⟨heq1, hemp⟩
      · have hl1 : lookupField fs1 "attachments" =
            some (.arr (xs.map fixAttachment)) := by
          rw [heq1]
          exact lookupField_updFields_self fs _ _
        have hl2 : lookupField fs2 "attachments" =
            some (.arr (jsonRTElems (xs.map fixAttachment))) := by
          rw [hfs2]
          have h := lookupField_jsonRTFields hl1 (by simp)
          simpa [jsonRT] using h
        have hl5 : lookupField fs5 "attachments" =
            some (.arr (jsonRTElems (xs.map fixAttachment))) := by rw [hatt5, hl2]
        have hlen : (jsonRTElems (xs.map fixAttachment)).length ≠ 0 := by
          rw [length_jsonRTElems, List.length_map]
          intro h
          exact hne (List.length_eq_zero.mp h)
        have hwfxs : ∀ x ∈ xs, wfJ x = true :=
          wfJ_arr.mp (hvals _ (lookupField_mem hatt))
        have hmapfix : (jsonRTElems (xs.map fixAttachment)).map fixAttachment =
            jsonRTElems (xs.map fixAttachment) := by
          refine map_fix_id (fun y hy => ?_)
          rcases mem_jsonRTElems hy with rfl | ⟨z, hz, rfl⟩
          · rfl
          · obtain ⟨x, hx, rfl⟩ := List.mem_map.mp hz
            exact fixAttachment_rt_stable (hwfxs x hx)
        simp only [fixAttachments, hl5]
        rw [if_pos hlen, hmapfix]
        exact congrArg _ (updFields_self hl5)
      · cases hl0 : lookupField fs "attachments" with
        | none =>
          have hl5 : lookupField fs5 "attachments" = none := by
            rw [hatt5, hfs2, heq1]
            exact lookupField_jsonRTFields_none hl0
          simp only [fixAttachments, hl5]
        | some v =>
          cases v with
          | undef =>
            have hl5 : lookupField fs5 "attachments" = none := by
              rw [hatt5, hfs2, heq1]
              exact lookupField_jsonRTFields_undef hnd hl0
            simp only [fixAttachments, hl5]
          | arr xs =>
            have hx0 : xs = [] := hemp xs hl0
            subst hx0
            have hl5 : lookupField fs5 "attachments" = some (.arr []) := by
              rw [hatt5, hfs2, heq1]
              have h := lookupField_jsonRTFields hl0 (by simp)
              simpa [jsonRT, jsonRTElems] using h
            simp only [fixAttachments, hl5]
            rw [if_neg (by simp)]
          | null =>
            have hl5 : lookupField fs5 "attachments" = some .null := by
              rw [hatt5, hfs2, heq1]
              have h := lookupField_jsonRTFields hl0 (by simp)
              simpa [jsonRT] using h
            simp only [fixAttachments, hl5]
          | bool b =>
            have hl5 : lookupField fs5 "attachments" = some (.bool b) := by
              rw [hatt5, hfs2, heq1]
              have h := lookupField_jsonRTFields hl0 (by simp)
              simpa [jsonRT] using h
            simp only [fixAttachments, hl5]
          | num n =>
            have hl5 : lookupField fs5 "attachments" = some (.num n) := by
              rw [hatt5, hfs2, heq1]
              have h := lookupField_jsonRTFields hl0 (by simp)
              simpa [jsonRT] using h
            simp only [fixAttachments, hl5]
          | str s =>
            have hl5 : lookupField fs5 "attachments" = some (.str s) := by
              rw [hatt5, hfs2, heq1]
              have h := lookupField_jsonRTFields hl0 (by simp)
              simpa [jsonRT] using h
            simp only [fixAttachments, hl5]
          | obj gs =>
            have hl5 : lookupField fs5 "attachments" =
                some (.obj (jsonRTFields gs)) := by
              rw [hatt5, hfs2, heq1]
              have h := lookupField_jsonRTFields hl0 (by simp)
              simpa [jsonRT] using h
            simp only [fixAttachments, hl5]
    have htags5 : (∃ ts, lookupField fs5 "tags" = some (.arr ts) ∧
        sortTags (cleanTags ts) = ts) ∨
        ∀ ts, lookupField fs5 "tags" ≠ some (.arr ts) := by
      rcases hcase5 with ⟨ts, hlt, rfl⟩ | ⟨rfl, hno⟩
      · refine Or.inl ⟨sortTags (cleanTags ts),
          lookupField_updFields_self _ _ _, ?_⟩
        rw [canonical_tags_fixpoint ts, sortTags_idem]
      · exact Or.inr hno
    rw [hsan1]
    exact sanitizeItem_fixpoint reg htid5 hset5 hstable5 hfix2 hacc5 htags5

/-- A small concrete instance of the external registry: one item type
("book", id 7), a base field `title` (id 1) whose book-specific subfield is
`bookTitle` (id 2), and a known `accessDate` field (id 3). -/
def bookRegistry : Registry :=
  ⟨fun v => match v with | .str "book" => 7 | _ => 0,
   fun f =>
     if f = "title" then 1
     else if f = "bookTitle" then 2
     else if f = "accessDate" then 3
     else 0,
   fun t b => if t = 7 ∧ b = 1 then 2 else 0,
   fun i => if i = 2 then "bookTitle" else "",
   fun f _ => decide (f = 2 ∨ f = 3)⟩

theorem bookRegistry_coherent : Coherent bookRegistry := by
  have key : ∀ t f : Nat, bookRegistry.getFieldIDFromTypeAndBase t f ≠ 0 →
      bookRegistry.getFieldIDFromTypeAndBase t f = 2 := by
    intro t f h
    by_cases hc : t = 7 ∧ f = 1
    · simp [bookRegistry, hc]
    · exfalso
      exact h (by simp [bookRegistry, hc])
  constructor <;> intro t f h <;> rw [key t f h] <;>
    simp [bookRegistry, skipFields]

/-- C7: normalization is idempotent — on any well-formed raw record (no
object level carries a duplicate key, which is true of every real
JavaScript value), and given that the external field registry satisfies the
`Coherent` consistency conditions, normalizing twice equals normalizing
once. -/
theorem C7_sanitizeItem_idempotent (reg : Registry) (item : JVal)
    (hcoh : Coherent reg) (hwf : wfJ item = true) :
    sanitizeItem reg (sanitizeItem reg item) = sanitizeItem reg item :=
  sanitizeItem_idem reg hcoh hwf

/-- C7, witness: a record exercising the serialization round trip, an
unknown field, a base-to-subfield rename, the `accessDate` removal and the
tag sort, under `bookRegistry`. -/
theorem C7_sanitizeItem_idempotent_witness :
    sanitizeItem bookRegistry (sanitizeItem bookRegistry
      (.obj [("itemType", .str "book"), ("title", .str "T"), ("junk", .str "J"),
             ("accessDate", .str "now"), ("u", .undef),
             ("tags", .arr [.str "b", .obj [("tag", .str "a")], .num 3]),
             ("attachments", .arr [.obj [("document", .obj []),
               ("url", .str "https://x.example/")]])])) =
    sanitizeItem bookRegistry
      (.obj [("itemType", .str "book"), ("title", .str "T"), ("junk", .str "J"),
             ("accessDate", .str "now"), ("u", .undef),
             ("tags", .arr [.str "b", .obj [("tag", .str "a")], .num 3]),
             ("attachments", .arr [.obj [("document", .obj []),
               ("url", .str "https://x.example/")]])]) :=
  C7_sanitizeItem_idempotent bookRegistry _ bookRegistry_coherent (by decide)

theorem checkType_inv {v : JVal} {ty : String} (h : checkType v = Except.ok ty) :
    v = .str ty ∧ ty ∈ TEST_TYPES := by
  cases v with
  | str s =>
    rw [checkType] at h
    by_cases hs : s ∈ TEST_TYPES
    · rw [if_pos hs] at h
      cases h
      exact ⟨rfl, hs⟩
    · rw [if_neg hs] at h
      cases h
  | undef => cases h
  | null => cases h
  | bool b => cases h
  | num n => cases h
  | arr xs => cases h
  | obj fs => cases h

theorem checkDefer_inv {v d : JVal} (h : checkDefer v = Except.ok d) :
    d = .undef ∨ d = .bool true ∨ ∃ n : Int, n ≠ 0 ∧ d = .num n := by
  rw [checkDefer.eq_def] at h
  by_cases ht : v.truthy
  · rw [if_pos ht] at h
    cases v with
    | bool b =>
      cases b
      · simp [JVal.truthy] at ht
      · cases h
        exact Or.inr (Or.inl rfl)
    | num n =>
      cases h
      refine Or.inr (Or.inr ⟨n, ?_, rfl⟩)
      simpa [JVal.truthy] using ht
    | undef => cases h
    | null => cases h
    | str s => cases h
    | arr xs => cases h
    | obj fs => cases h
  · rw [if_neg ht] at h
    cases h
    exact Or.inl rfl

theorem checkInput_inv {ty : String} {v w : JVal}
    (h : checkInput ty v = Except.ok w) :
    w = v ∧ v.jsTypeof = (if ty = "web" ∨ ty = "import" then "string" else "object") := by
  rw [checkInput] at h
  by_cases he : v.jsTypeof = (if ty = "web" ∨ ty = "import" then "string" else "object")
  · rw [if_pos he] at h
    cases h
    exact ⟨rfl, he⟩
  · rw [if_neg he] at h
    cases h

theorem checkItems_inv {reg : Registry} {v its : JVal}
    (h : checkItems reg v = Except.ok its) :
    (∃ xs, v = .arr xs ∧ its = .arr (xs.map (sanitizeItem reg))) ∨
    (v = .str "multiple" ∧ its = .str "multiple") := by
  cases v with
  | arr xs =>
    rw [checkItems] at h
    cases h
    exact Or.inl ⟨xs, rfl, rfl⟩
  | str s =>
    rw [checkItems] at h
    by_cases hs : s = "multiple"
    · rw [if_pos hs] at h
      cases h
      exact Or.inr ⟨by rw [hs], by rw [hs]⟩
    · rw [if_neg hs] at h
      cases h
  | undef => cases h
  | null => cases h
  | bool b => cases h
  | num n => cases h
  | obj fs => cases h

theorem checkDetectedItemType_inv {v d : JVal}
    (h : checkDetectedItemType v = Except.ok d) :
    d = v ∧ (v = .undef ∨ (∃ s, v = .str s) ∨ ∃ b, v = .bool b) := by
  cases v with
  | undef => cases h; exact ⟨rfl, Or.inl rfl⟩
  | str s => cases h; exact ⟨rfl, Or.inr (Or.inl ⟨s, rfl⟩)⟩
  | bool b => cases h; exact ⟨rfl, Or.inr (Or.inr ⟨b, rfl⟩)⟩
  | null => cases h
  | num n => cases h
  | arr xs => cases h
  | obj fs => cases h

theorem Test.make_inv {reg : Registry} {i : TestInit} {t : Test}
    (hmk : Test.make reg i = Except.ok t) :
    checkType i.type = Except.ok t.type ∧
    checkDefer (JVal.coalesce i.defer (.bool false)) = Except.ok t.defer ∧
    checkInput t.type (JVal.coalesce i.input i.url) = Except.ok t.input ∧
    checkItems reg i.items = Except.ok t.items ∧
    checkDetectedItemType
      (JVal.coalesce i.detectedItemType (inferItemType t.type t.items)) =
      Except.ok t.detectedItemType := by
  rw [Test.make] at hmk
  cases h1 : checkType i.type with
  | error e =>
      simp only [h1, Bind.bind, Except.bind] at hmk
      cases hmk
  | ok ty =>
    simp only [h1, Bind.bind, Except.bind] at hmk
    cases h2 : checkDefer (JVal.coalesce i.defer (.bool false)) with
    | error e =>
      simp only [h2, Bind.bind, Except.bind] at hmk
      cases hmk
    | ok df =>
      simp only [h2, Bind.bind, Except.bind] at hmk
      cases h3 : checkInput ty (JVal.coalesce i.input i.url) with
      | error e =>
      simp only [h3, Bind.bind, Except.bind] at hmk
      cases hmk
      | ok inp =>
        simp only [h3, Bind.bind, Except.bind] at hmk
        cases h4 : checkItems reg i.items with
        | error e =>
      simp only [h4, Bind.bind, Except.bind] at hmk
      cases hmk
        | ok its =>
          simp only [h4, Bind.bind, Except.bind] at hmk
          cases h5 : checkDetectedItemType
              (JVal.coalesce i.detectedItemType (inferItemType ty its)) with
          | error e =>
      simp only [h5, Bind.bind, Except.bind] at hmk
      cases hmk
          | ok dit =>
            simp only [h5, Bind.bind, Except.bind] at hmk
            injection hmk with h6
            subst h6
            exact ⟨rfl, rfl, h3, rfl, h5⟩

/-- C10: the `items` setter normalizes every element — whenever a validly
constructed test's items field holds an array, that array is the image of
the configured array under `sanitizeItem`, and (under a coherent registry,
for well-formed raw records) every element is a fixpoint of the normalizer,
so `equals` always compares normalized records on both sides. -/
theorem C10_items_normalized (reg : Registry) (i : TestInit) (t : Test)
    (ys : List JVal) (hcoh : Coherent reg)
    (hwf : ∀ xs, i.items = .arr xs → ∀ x ∈ xs, wfJ x = true)
    (hmk : Test.make reg i = Except.ok t) (hys : t.items = .arr ys) :
    (∃ xs, i.items = .arr xs ∧ ys = xs.map (sanitizeItem reg)) ∧
    ∀ y ∈ ys, sanitizeItem reg y = y := by
  obtain ⟨-, -, -, hits, -⟩ := Test.make_inv hmk
  rcases checkItems_inv hits with ⟨xs, hv, he⟩ | ⟨hv, he⟩
  · rw [hys] at he
    have hxy : ys = xs.map (sanitizeItem reg) := by
      exact (JVal.arr.inj he)
    refine ⟨⟨xs, hv, hxy⟩, ?_⟩
    intro y hy
    rw [hxy] at hy
    obtain ⟨x, hx, rfl⟩ := List.mem_map.mp hy
    exact sanitizeItem_idem reg hcoh (hwf xs hv x hx)
  · rw [hys] at he
    cases he

/-- C10, witness at a concrete configuration under `bookRegistry`. -/
theorem C10_items_normalized_witness :
    (∃ xs, (JVal.arr [.obj [("itemType", .str "book"), ("title", .str "T"),
        ("accessDate", .str "now")]]) = .arr xs ∧
      [.obj [("itemType", .str "book"), ("bookTitle", .str "T")]] =
        xs.map (sanitizeItem bookRegistry)) ∧
    ∀ y ∈ [JVal.obj [("itemType", .str "book"), ("bookTitle", .str "T")]],
      sanitizeItem bookRegistry y = y :=
  C10_items_normalized bookRegistry
    ⟨.str "web", .undef, .undef, .str "https://x.example/",
      .arr [.obj [("itemType", .str "book"), ("title", .str "T"),
        ("accessDate", .str "now")]], .str "book"⟩
    ⟨"web", .undef, .str "https://x.example/", .str "book",
      .arr [.obj [("itemType", .str "book"), ("bookTitle", .str "T")]]⟩
    [.obj [("itemType", .str "book"), ("bookTitle", .str "T")]]
    bookRegistry_coherent
    (by intro xs h x hx; cases h; revert x hx; decide)
    (by decide) (by decide)

theorem deepEqual_self : ∀ {v : JVal}, wfJ v = true → deepEqual v v = true := by
  intro v
  induction v using jval_ind with
  | hundef => intro _; rfl
  | hnull => intro _; rfl
  | hbool b => intro _; simp [deepEqual, JVal.primStrictEq]
  | hnum n => intro _; simp [deepEqual, JVal.primStrictEq]
  | hstr s => intro _; simp [deepEqual]
  | harr xs ih =>
    intro hwf
    have hwfx := wfJ_arr.mp hwf
    rw [show deepEqual (.arr xs) (.arr xs) = deepEqualElems xs xs from rfl]
    induction xs with
    | nil => rfl
    | cons x rest ihr =>
      rw [deepEqualElems, Bool.and_eq_true]
      exact ⟨ih x (List.mem_cons_self _ _) (hwfx x (List.mem_cons_self _ _)),
        ihr (fun y hy => ih y (List.mem_cons_of_mem _ hy))
          (wfJ_arr.mpr (fun y hy => hwfx y (List.mem_cons_of_mem _ hy)))
          (fun y hy => hwfx y (List.mem_cons_of_mem _ hy))⟩
  | hobj fs ih =>
    intro hwf
    obtain ⟨hnd, hvals⟩ := wfJ_obj.mp hwf
    rw [show deepEqual (.obj fs) (.obj fs) =
      (deepEqualFields fs (.obj fs) &&
        (jsEnumKeys (.obj fs)).all (fun k => jsHasOwn (.obj fs) k)) from rfl,
      Bool.and_eq_true]
    constructor
    · have sub : ∀ gs : List (String × JVal), (∀ p ∈ gs, p ∈ fs) →
          deepEqualFields gs (.obj fs) = true := by
        intro gs
        induction gs with
        | nil => intro _; rfl
        | cons p rest ihg =>
          intro hsub
          rcases p with ⟨k, w⟩
          rw [deepEqualFields, Bool.and_eq_true, Bool.and_eq_true]
          have hm : (k, w) ∈ fs := hsub (k, w) (List.mem_cons_self _ _)
          refine ⟨⟨?_, ?_⟩, ihg (fun q hq => hsub q (List.mem_cons_of_mem _ hq))⟩
          · exact jsHasOwn_obj.mpr (List.mem_map.mpr ⟨(k, w), hm, rfl⟩)
          · rw [show jsGet (.obj fs) k = (lookupField fs k).getD .undef from rfl,
              lookupField_of_mem_nodup hnd hm]
            exact ih (k, w) hm (hvals (k, w) hm)
      exact sub fs (fun p hp => hp)
    · rw [List.all_eq_true]
      intro k hk
      exact jsHasOwn_obj.mpr hk

theorem mem_jsonRTFields {fs : List (String × JVal)} {p : String × JVal}
    (hp : p ∈ jsonRTFields fs) : ∃ q ∈ fs, p = (q.1, jsonRT q.2) := by
  induction fs with
  | nil => simp [jsonRTFields] at hp
  | cons q rest ih =>
    rcases q with ⟨k, v⟩
    rw [jsonRTFields_cons] at hp
    by_cases hv : v = .undef
    · rw [if_pos hv] at hp
      obtain ⟨q', hq', he⟩ := ih hp
      exact ⟨q', List.mem_cons_of_mem _ hq', he⟩
    · rw [if_neg hv] at hp
      rcases List.mem_cons.mp hp with hp | hp
      · exact ⟨(k, v), List.mem_cons_self _ _, hp⟩
      · obtain ⟨q', hq', he⟩ := ih hp
        exact ⟨q', List.mem_cons_of_mem _ hq', he⟩

theorem jsonRT_wf : ∀ {v : JVal}, wfJ v = true → wfJ (jsonRT v) = true := by
  intro v
  induction v using jval_ind with
  | hundef => intro h; exact h
  | hnull => intro h; exact h
  | hbool b => intro h; exact h
  | hnum n => intro h; exact h
  | hstr s => intro h; exact h
  | harr xs ih =>
    intro hwf
    rw [jsonRT, wfJ_arr]
    intro y hy
    rcases mem_jsonRTElems hy with rfl | ⟨x, hx, rfl⟩
    · rfl
    · exact ih x hx (wfJ_arr.mp hwf x hx)
  | hobj fs ih =>
    intro hwf
    obtain ⟨hnd, hvals⟩ := wfJ_obj.mp hwf
    rw [jsonRT, wfJ_obj]
    refine ⟨nodup_keys_jsonRTFields hnd, ?_⟩
    intro p hp
    obtain ⟨q, hq, rfl⟩ := mem_jsonRTFields hp
    exact ih q hq (hvals q hq)

theorem mem_delIfTruthy {gs : List (String × JVal)} {k : String} {p : String × JVal}
    (hp : p ∈ delIfTruthy gs k) : p ∈ gs := by
  rw [delIfTruthy] at hp
  revert hp
  split
  · exact fun hp => (mem_delFields.mp hp).1
  · exact id

theorem mem_docStep {gs : List (String × JVal)} {p : String × JVal}
    (hp : p ∈ docStep gs) : p ∈ gs ∨ p = ("mimeType", .str "text/html") := by
  rw [docStep] at hp
  revert hp
  split
  · intro hp
    rcases mem_updFields hp with hp | hp
    · exact Or.inl (mem_delFields.mp hp).1
    · exact Or.inr hp
  · exact Or.inl

theorem fixAttachment_wf : ∀ {x : JVal}, wfJ x = true → wfJ (fixAttachment x) = true := by
  intro x hwf
  cases x with
  | obj gs =>
    obtain ⟨hnd, hvals⟩ := wfJ_obj.mp hwf
    rw [fixAttachment, wfJ_obj]
    refine ⟨nodup_fixAttachmentFields hnd, ?_⟩
    intro p hp
    rcases mem_docStep (mem_delIfTruthy (mem_delIfTruthy hp)) with h | rfl
    · exact hvals p h
    · rfl
  | undef => exact hwf
  | null => exact hwf
  | bool b => exact hwf
  | num n => exact hwf
  | str s => exact hwf
  | arr xs => exact hwf

theorem fixAttachments_wf {v : JVal} (hwf : wfJ v = true) :
    wfJ (fixAttachments v) = true := by
  cases v with
  | obj fs =>
    obtain ⟨hnd, hvals⟩ := wfJ_obj.mp hwf
    obtain ⟨fs1, hfix, hcase⟩ := fixAttachments_eq fs
    rw [hfix, wfJ_obj]
    rcases hcase with ⟨xs, hatt, hne, rfl⟩ | ⟨rfl, _⟩
    · refine ⟨nodup_keys_updFields hnd, ?_⟩
      intro p hp
      rcases mem_updFields hp with hp | rfl
      · exact hvals p hp
      · rw [show ("attachments", JVal.arr (xs.map fixAttachment)).2 =
          JVal.arr (xs.map fixAttachment) from rfl, wfJ_arr]
        intro y hy
        obtain ⟨x, hx, rfl⟩ := List.mem_map.mp hy
        exact fixAttachment_wf (wfJ_arr.mp (hvals _ (lookupField_mem hatt)) x hx)
    · exact ⟨hnd, hvals⟩
  | undef => exact hwf
  | null => exact hwf
  | bool b => exact hwf
  | num n => exact hwf
  | str s => exact hwf
  | arr xs => exact hwf

theorem nodup_runLoopFields {reg : Registry} {t : Nat} :
    ∀ (pending : List String) {fs : List (String × JVal)},
      (fs.map Prod.fst).Nodup →
      ((runLoopFields reg t pending fs).map Prod.fst).Nodup := by
  intro pending
  induction pending with
  | nil => intro fs h; exact h
  | cons f rest ih =>
    intro fs h
    rw [show runLoopFields reg t (f :: rest) fs =
      runLoopFields reg t rest (processFields reg t fs f) from rfl]
    exact ih (nodup_processFields h)

theorem sanitizeItem_wf (reg : Registry) :
    ∀ {v : JVal}, wfJ v = true → wfJ (sanitizeItem reg v) = true := by
  intro v hwf
  cases v with
  | obj fs =>
    obtain ⟨fs1, hfix, hcase⟩ := fixAttachments_eq fs
    have hwf1 : wfJ (.obj fs1) = true := hfix ▸ fixAttachments_wf hwf
    have hwf2 : wfJ (.obj (jsonRTFields fs1)) = true := jsonRT_wf hwf1
    obtain ⟨hnd2, hvals2⟩ := wfJ_obj.mp hwf2
    rw [sanitizeItem_obj reg fs1 hfix]
    have hnd3 := @nodup_runLoopFields reg
      (reg.getTypeID (jsGet (.obj (jsonRTFields fs1)) "itemType"))
      ((jsonRTFields fs1).map Prod.fst) (jsonRTFields fs1) hnd2
    have hvals3 : ∀ p ∈ runLoopFields reg
        (reg.getTypeID (jsGet (.obj (jsonRTFields fs1)) "itemType"))
        ((jsonRTFields fs1).map Prod.fst) (jsonRTFields fs1), wfJ p.2 = true := by
      intro p hp
      obtain ⟨q, hq, he⟩ := mem_runLoopFields_val hp
      rw [he]
      exact hvals2 q hq
    obtain ⟨fs5, hts, hcase5⟩ := tagsStep_eq
      (delFields (runLoopFields reg
        (reg.getTypeID (jsGet (.obj (jsonRTFields fs1)) "itemType"))
        ((jsonRTFields fs1).map Prod.fst) (jsonRTFields fs1)) "accessDate")
    rw [hts, wfJ_obj]
    have hnd4 := @nodup_keys_delFields _ "accessDate" hnd3
    have hvals4 : ∀ p ∈ delFields (runLoopFields reg
        (reg.getTypeID (jsGet (.obj (jsonRTFields fs1)) "itemType"))
        ((jsonRTFields fs1).map Prod.fst) (jsonRTFields fs1)) "accessDate",
        wfJ p.2 = true :=
      fun p hp => hvals3 p (mem_delFields.mp hp).1
    rcases hcase5 with ⟨ts, hlt, rfl⟩ | ⟨rfl, _⟩
    · refine ⟨nodup_keys_updFields hnd4, ?_⟩
      intro p hp
      rcases mem_updFields hp with hp | rfl
      · exact hvals4 p hp
      · rw [show ("tags", JVal.arr (sortTags (cleanTags ts))).2 =
          JVal.arr (sortTags (cleanTags ts)) from rfl, wfJ_arr]
        intro y hy
        obtain ⟨s, _, rfl⟩ := mem_cleanTags (mem_sortTags.mp hy)
        rfl
    · exact ⟨hnd4, hvals4⟩
  | undef => exact hwf
  | null => exact hwf
  | bool b => exact hwf
  | num n => exact hwf
  | str s => exact hwf
  | arr xs =>
    rw [sanitizeItem_arr, show JVal.arr (jsonRTElems xs) = jsonRT (.arr xs) from rfl]
    exact jsonRT_wf hwf

theorem primStrictEq_eq : ∀ {a b : JVal}, JVal.primStrictEq a b = true → a = b := by
  intro a b
  cases a <;> cases b <;> simp [JVal.primStrictEq]

theorem toJSON_projections (t : Test) :
    jsGet t.toJSON "type" = .str t.type ∧
    jsGet t.toJSON "defer" = t.defer ∧
    jsGet t.toJSON "input" = (if t.type = "web" then .undef else t.input) ∧
    jsGet t.toJSON "url" = (if t.type = "web" then t.input else .undef) ∧
    jsGet t.toJSON "items" = t.items ∧
    jsGet t.toJSON "detectedItemType" =
      (if t.detectedItemType.truthy ∧
          JVal.primStrictEq t.detectedItemType (inferItemType t.type t.items) then
        JVal.undef
      else t.detectedItemType) := by
  by_cases hw : t.type = "web" <;>
    refine ⟨?_, ?_, ?_, ?_, ?_, ?_⟩ <;>
    simp [Test.toJSON, jsGet, lookupField, hw]

/-- A valid `defer` configuration value (spec: absent, `true`, or a number
of seconds). -/
def validDefer : JVal → Bool
  | .undef => true
  | .bool true => true
  | .num _ => true
  | _ => false

/-- A valid `input` configuration value for a given test type (spec: a URL
or data string for web and import tests, a structured — well-formed, actual
— query object for search and export tests). -/
def validInputFor (ty : String) (v : JVal) : Bool :=
  if ty = "web" ∨ ty = "import" then
    match v with
    | .str _ => true
    | _ => false
  else
    match v with
    | .obj _ => wfJ v
    | _ => false

/-- A valid `items` configuration value: an array of well-formed records,
or the multiple sentinel. -/
def validItems : JVal → Bool
  | .arr xs => wfElems xs
  | .str s => s = "multiple"
  | _ => false

/-- A valid `detectedItemType` configuration value: absent, a type name, or
a boolean. -/
def validDit : JVal → Bool
  | .undef => true
  | .str _ => true
  | .bool _ => true
  | _ => false

/-- A valid test configuration in the sense of the spec data model: a
recognized type; a defer that is absent, `true` or a number; an effective
input (after `input ?? url`) of the representation class the type requires;
items that are an array of well-formed records or the multiple sentinel;
and a detected item type that is absent, a string or a boolean. -/
def ValidInit (i : TestInit) : Bool :=
  match i.type with
  | .str ty =>
      decide (ty ∈ TEST_TYPES) && validDefer i.defer &&
      validInputFor ty (JVal.coalesce i.input i.url) &&
      validItems i.items && validDit i.detectedItemType
  | _ => false

theorem checkDefer_fix {d : JVal}
    (h : d = .undef ∨ d = .bool true ∨ ∃ n : Int, n ≠ 0 ∧ d = .num n) :
    checkDefer (JVal.coalesce d (.bool false)) = Except.ok d := by
  rcases h with rfl | rfl | ⟨n, hn, rfl⟩
  · rfl
  · rfl
  · simp [JVal.coalesce, JVal.nullish, checkDefer, JVal.truthy, hn]

/-- C6: for every valid test configuration (recognized type, defer absent
or `true` or a number, effective input of the representation class the type
requires, items an array of well-formed records or the multiple sentinel,
detectedItemType absent or a string or boolean), constructing a Test,
serializing it with `toJSON` and reconstructing through the constructor
yields the very same Test — in particular an explicit `detectedItemType`
equal to the inferred value is dropped by serialization and restored
identically — and the reconstructed Test is `equals`-equal to the
original. Requires the registry coherence under which normalization is
idempotent. -/
theorem C6_round_trip (reg : Registry) (i : TestInit) (t : Test)
    (hcoh : Coherent reg) (hvi : ValidInit i = true)
    (hmk : Test.make reg i = Except.ok t) :
    Test.ofTest reg t = Except.ok t ∧ Test.equals t t = true := by
  obtain ⟨h1, h2, h3, h4, h5⟩ := Test.make_inv hmk
  obtain ⟨hty_eq, hty_mem⟩ := checkType_inv h1
  have hdf := checkDefer_inv h2
  obtain ⟨hinp_eq, hinp_ty⟩ := checkInput_inv h3
  have hits := checkItems_inv h4
  obtain ⟨hdit_eq, hdit_shape⟩ := checkDetectedItemType_inv h5
  rw [← hdit_eq] at hdit_shape
  rw [ValidInit, hty_eq] at hvi
  simp only [Bool.and_eq_true, decide_eq_true_eq] at hvi
  obtain ⟨⟨⟨⟨-, hdfv⟩, hinv⟩, hitv⟩, hdtv⟩ := hvi
  rw [← hinp_eq] at hinv hinp_ty
  have hshape : t.input.nullish = false ∧ wfJ t.input = true := by
    unfold validInputFor at hinv
    split at hinv
    · split at hinv
      · next s heq => exact ⟨by rw [heq]; rfl, by rw [heq]; rfl⟩
      · cases hinv
    · split at hinv
      · next gs heq => exact ⟨by rw [heq]; rfl, hinv⟩
      · cases hinv
  have hd_cases : t.detectedItemType = inferItemType t.type t.items ∨
      t.detectedItemType ≠ .undef := by
    cases hx : i.detectedItemType with
    | undef =>
      left
      rw [hx] at h5
      rw [show JVal.coalesce JVal.undef (inferItemType t.type t.items) =
        inferItemType t.type t.items from rfl] at h5
      exact (checkDetectedItemType_inv h5).1
    | str s =>
      right
      rw [hx] at h5
      rw [show JVal.coalesce (JVal.str s) (inferItemType t.type t.items) =
        JVal.str s from rfl] at h5
      rw [(checkDetectedItemType_inv h5).1]
      simp
    | bool b =>
      right
      rw [hx] at h5
      rw [show JVal.coalesce (JVal.bool b) (inferItemType t.type t.items) =
        JVal.bool b from rfl] at h5
      rw [(checkDetectedItemType_inv h5).1]
      simp
    | null => rw [hx] at hdtv; cases hdtv
    | num n => rw [hx] at hdtv; cases hdtv
    | arr xs => rw [hx] at hdtv; cases hdtv
    | obj fs => rw [hx] at hdtv; cases hdtv
  have hwfitems : ∀ xs, i.items = .arr xs → ∀ x ∈ xs, wfJ x = true := by
    intro xs hx
    rw [hx] at hitv
    exact (wfElems_iff xs).mp hitv
  have hits_fix : checkItems reg t.items = Except.ok t.items := by
    rcases hits with ⟨xs, hiv, he⟩ | ⟨hiv, he⟩
    · have hmm : (xs.map (sanitizeItem reg)).map (sanitizeItem reg) =
          xs.map (sanitizeItem reg) :=
        map_fix_id (fun y hy => by
          obtain ⟨x, hx, rfl⟩ := List.mem_map.mp hy
          exact sanitizeItem_idem reg hcoh (hwfitems xs hiv x hx))
      rw [he, show checkItems reg (.arr (xs.map (sanitizeItem reg))) =
        Except.ok (.arr ((xs.map (sanitizeItem reg)).map (sanitizeItem reg))) from rfl,
        hmm]
    · rw [he]
      rfl
  have hdit_fix : checkDetectedItemType (JVal.coalesce
      (if t.detectedItemType.truthy ∧
          JVal.primStrictEq t.detectedItemType (inferItemType t.type t.items) then
        JVal.undef
      else t.detectedItemType)
      (inferItemType t.type t.items)) = Except.ok t.detectedItemType := by
    by_cases hc : t.detectedItemType.truthy ∧
        JVal.primStrictEq t.detectedItemType (inferItemType t.type t.items)
    · rw [if_pos hc,
        show JVal.coalesce JVal.undef (inferItemType t.type t.items) =
          inferItemType t.type t.items from rfl,
        ← primStrictEq_eq hc.2]
      rcases hdit_shape with hu | ⟨s, hs⟩ | ⟨b, hb⟩
      · rw [hu]; rfl
      · rw [hs]; rfl
      · rw [hb]; rfl
    · rw [if_neg hc]
      rcases hdit_shape with hu | ⟨s, hs⟩ | ⟨b, hb⟩
      · rcases hd_cases with hinf | hne
        · rw [hu, show JVal.coalesce JVal.undef (inferItemType t.type t.items) =
            inferItemType t.type t.items from rfl, ← hinf, hu]
          rfl
        · exact absurd hu hne
      · rw [hs, show JVal.coalesce (JVal.str s) (inferItemType t.type t.items) =
          JVal.str s from rfl]
        rfl
      · rw [hb, show JVal.coalesce (JVal.bool b) (inferItemType t.type t.items) =
          JVal.bool b from rfl]
        rfl
  obtain ⟨hpt, hpd, hpi, hpu, hpit, hpdit⟩ := toJSON_projections t
  have hofTest : Test.ofTest reg t = Except.ok t := by
    rw [Test.ofTest, Test.make]
    simp only [TestInit.ofJVal]
    rw [hpt, hpd, hpi, hpu, hpit, hpdit]
    rw [show checkType (.str t.type) = Except.ok t.type from by
      rw [checkType, if_pos hty_mem]]
    simp only [Bind.bind, Except.bind]
    rw [checkDefer_fix hdf]
    simp only [Bind.bind, Except.bind]
    have hinp_step : JVal.coalesce (if t.type = "web" then JVal.undef else t.input)
        (if t.type = "web" then t.input else JVal.undef) = t.input := by
      by_cases hw : t.type = "web"
      · rw [if_pos hw, if_pos hw]
        rfl
      · rw [if_neg hw, if_neg hw]
        simp [JVal.coalesce, hshape.1]
    rw [hinp_step]
    rw [show checkInput t.type t.input = Except.ok t.input from by
      rw [checkInput]
      exact if_pos hinp_ty]
    simp only [Bind.bind, Except.bind]
    rw [hits_fix]
    simp only [Bind.bind, Except.bind]
    rw [hdit_fix]
  refine ⟨hofTest, ?_⟩
  have hwfjson : wfJ t.toJSON = true := by
    rw [Test.toJSON, wfJ_obj]
    constructor
    · by_cases hw : t.type = "web" <;> simp [hw]
    · intro p hp
      simp only [List.mem_cons, List.not_mem_nil, or_false] at hp
      rcases hp with rfl | rfl | rfl | rfl | rfl
      · rfl
      · rcases hdf with he | he | ⟨n, _, he⟩ <;> rw [he] <;> rfl
      · exact hshape.2
      · by_cases hc : t.detectedItemType.truthy ∧
            JVal.primStrictEq t.detectedItemType (inferItemType t.type t.items)
        · rw [show ("detectedItemType",
            if t.detectedItemType.truthy ∧
                JVal.primStrictEq t.detectedItemType
                  (inferItemType t.type t.items) then
              JVal.undef
            else t.detectedItemType).2 =
            (if t.detectedItemType.truthy ∧
                JVal.primStrictEq t.detectedItemType
                  (inferItemType t.type t.items) then
              JVal.undef
            else t.detectedItemType) from rfl, if_pos hc]
          rfl
        · rw [show ("detectedItemType",
            if t.detectedItemType.truthy ∧
                JVal.primStrictEq t.detectedItemType
                  (inferItemType t.type t.items) then
              JVal.undef
            else t.detectedItemType).2 =
            (if t.detectedItemType.truthy ∧
                JVal.primStrictEq t.detectedItemType
                  (inferItemType t.type t.items) then
              JVal.undef
            else t.detectedItemType) from rfl, if_neg hc]
          rcases hdit_shape with hu | ⟨s, hs⟩ | ⟨b, hb⟩ <;>
            first
              | (rw [hu]; rfl)
              | (rw [hs]; rfl)
              | (rw [hb]; rfl)
      · rcases hits with ⟨xs, hiv, he⟩ | ⟨hiv, he⟩
        · rw [show ("items", t.items).2 = t.items from rfl, he, wfJ_arr]
          intro y hy
          obtain ⟨x, hx, rfl⟩ := List.mem_map.mp hy
          exact sanitizeItem_wf reg (hwfitems xs hiv x hx)
        · rw [show ("items", t.items).2 = t.items from rfl, he]
          rfl
  rw [Test.equals]
  exact deepEqual_self hwfjson

/-- A valid web-test configuration exercising the round trip: a url (no
input), one item whose `title` gets renamed to `bookTitle`, an explicit
`detectedItemType` equal to the inferred one (so serialization omits it). -/
def c6Init : TestInit :=
  ⟨.str "web", .undef, .undef, .str "https://example.com/a",
   .arr [.obj [("itemType", .str "book"), ("title", .str "T")]], .str "book"⟩

/-- The Test the constructor produces from `c6Init`. -/
def c6Test : Test :=
  ⟨"web", .undef, .str "https://example.com/a", .str "book",
   .arr [.obj [("itemType", .str "book"), ("bookTitle", .str "T")]]⟩

/-- C6, witness: on the concrete valid configuration `c6Init` under the
coherent `bookRegistry`, reconstruction from the serialized form returns
the identical Test and `equals` holds. -/
theorem C6_round_trip_witness :
    ValidInit c6Init = true ∧
    Test.make bookRegistry c6Init = Except.ok c6Test ∧
    (Test.ofTest bookRegistry c6Test = Except.ok c6Test ∧
      Test.equals c6Test c6Test = true) :=
  ⟨by decide, by decide,
   C6_round_trip bookRegistry c6Init c6Test bookRegistry_coherent
     (by decide) (by decide)⟩
